import Mathlib

/-!
Verification development for the libprotoserial fragmentation handler
(src/libprotoserial/fragmentation/fragmentation.hpp).

The handler is shallowly embedded: machine integers become `Nat`, byte
containers become `List Nat`, `std::unique_ptr<transfer_wrapper>` becomes
`Option Transfer`, C++ exceptions become `Except Err`, and the three entry
points (`receive_callback`, `transmit`, `main_task`) become executable state
transformers that also return the list of emitted events.  Each progress
record additionally carries a ghost `tag` (a fresh natural number) used only
to state temporal properties such as "transfer_acked fires at most once per
outgoing transfer"; the tag does not influence any control flow.

Parts of the repository that the handler uses but that are not part of the
given sources (transfer.hpp, headers.hpp, clock.hpp) are modelled from the
specification; every such definition is marked `Modelled from the spec:` in
its doc comment.
-/

namespace sp

/-- Error outcomes of handler code: `invalidArg` models a thrown
`std::invalid_argument` (from `transfer_wrapper::_get_fragment`), `nullDeref`
models dereferencing an empty `std::unique_ptr`. -/
inductive Err where
  | nullDeref : Err
  | invalidArg : String → Err
deriving DecidableEq, Repr

/-- Modelled from the spec: message type codes of `headers.hpp` (not under
src/), wire format section 6.3: `FRAGMENT=1`, `FRAGMENT_ACK=2`,
`FRAGMENT_REQ=3`. -/
def FRAGMENT : Nat := 1

/-- Modelled from the spec: the `FRAGMENT_ACK` type code. -/
def FRAGMENT_ACK : Nat := 2

/-- Modelled from the spec: the `FRAGMENT_REQ` type code. -/
def FRAGMENT_REQ : Nat := 3

/-- Modelled from the spec: the on-wire header `headers::fragment_8b16b`
(headers.hpp is not under src/): fields `{type:u8, fragment:u8,
fragments_total:u8, id:u16, prev_id:u16}`. -/
structure Header where
  typeCode : Nat
  fragment : Nat
  fragments_total : Nat
  id : Nat
  prev_id : Nat
deriving DecidableEq, Repr

/-- Modelled from the spec: `sizeof(Header)` for the fragment_8b16b variant:
three u8 fields and two u16 fields, 7 bytes. -/
def headerSize : Nat := 7

/-- Modelled from the spec: `Header::is_valid()` (headers.hpp is not under
src/), section 4.1: the type is in the known set, `1 ≤ fragment ≤
fragments_total` (whence `fragments_total ≥ 1`). -/
def Header.is_valid (h : Header) : Bool :=
  (h.typeCode == FRAGMENT || h.typeCode == FRAGMENT_ACK || h.typeCode == FRAGMENT_REQ)
    && 1 ≤ h.fragment && h.fragment ≤ h.fragments_total

/-- Modelled from the spec: fixed-size little-endian serialization of the
header (`to_bytes`), section 6.3 wire format. -/
def Header.to_bytes (h : Header) : List Nat :=
  [h.typeCode % 256, h.fragment % 256, h.fragments_total % 256,
   h.id % 256, h.id / 256 % 256, h.prev_id % 256, h.prev_id / 256 % 256]

/-- Modelled from the spec: `parsers::byte_copy<Header>` reading the first
`sizeof(Header)` bytes of the received data (the caller has already checked
the size). -/
def parseHeader (d : List Nat) : Header :=
  { typeCode := d.getD 0 0
    fragment := d.getD 1 0
    fragments_total := d.getD 2 0
    id := d.getD 3 0 + 256 * d.getD 4 0
    prev_id := d.getD 5 0 + 256 * d.getD 6 0 }

/-- A link fragment: an address (source for received fragments, destination
for emitted ones — the C++ `fragment` carries both, the handler only ever
reads the one relevant for its direction) and the payload bytes. -/
structure Fragment where
  addr : Nat
  data : List Nat
deriving DecidableEq, Repr

/-- Modelled from the spec (transfer.hpp is not under src/): a transfer is an
ordered sequence of fragment slots indexed 1..N with identifiers, peer
addresses and the modification timestamp.  An emission-mode transfer is one
whose slots are all filled (the C++ code distinguishes the modes with
`_is_complete()`). -/
structure Transfer where
  id : Nat
  prev_id : Nat
  source : Nat
  destination : Nat
  slots : List (Option (List Nat))
  timestamp_modified : Nat
deriving DecidableEq, Repr

/-- The concatenated data of the transfer (C++ `data_begin()`/`data_end()`
iteration over all stored fragment data). -/
def Transfer.data (t : Transfer) : List Nat :=
  (t.slots.filterMap (fun x => x)).flatten

/-- C++ `transfer::data_size()`. -/
def Transfer.data_size (t : Transfer) : Nat :=
  t.data.length

/-- `transfer_wrapper::_is_complete` (fragmentation.hpp lines 94-102): no
slot is empty. -/
def Transfer.is_complete (t : Transfer) : Bool :=
  t.slots.all Option.isSome

/-- `transfer_wrapper::_missing_fragment` (fragmentation.hpp lines 105-113):
the 1-based index of the first empty slot, 0 when none is empty. -/
def Transfer.missing_fragment (t : Transfer) : Nat :=
  match t.slots.findIdx? Option.isNone with
  | some i => i + 1
  | none => 0

/-- `transfer_wrapper::_fragments_count` (fragmentation.hpp lines 82-91):
for a complete transfer (mode 2) the count is recomputed from the data size
and the handler's `max_fragment_size`; otherwise (mode 1) it is the number of
preallocated slots. -/
def Transfer.fragments_count (mfs : Nat) (t : Transfer) : Nat :=
  if t.is_complete then
    t.data_size / mfs + (if t.data_size % mfs == 0 then 0 else 1)
  else
    t.slots.length

/-- `transfer_wrapper::_get_fragment` (fragmentation.hpp lines 116-128):
throws on `fragment_pos == 0` and on `(fragment_pos - 1) * p_size >
data_size()`; otherwise copies up to `p_size` bytes starting at offset
`(fragment_pos - 1) * p_size` and addresses the fragment to the transfer's
destination. -/
def Transfer.get_fragment (mfs : Nat) (t : Transfer) (fragment_pos : Nat) :
    Except Err Fragment :=
  if fragment_pos == 0 then
    .error (.invalidArg "fragment_pos is zero")
  else if (fragment_pos - 1) * mfs > t.data_size then
    .error (.invalidArg "fragment_pos beyond data_size")
  else
    .ok ⟨t.destination, (t.data.drop ((fragment_pos - 1) * mfs)).take mfs⟩

/-- Modelled from the spec: `transfer::match(fragment)` (transfer.hpp is not
under src/), section 3: source/destination compatibility of a received
fragment with a reassembly — the fragment comes from the transfer's source
peer. -/
def Transfer.matches (t : Transfer) (p : Fragment) : Bool :=
  t.source == p.addr

/-- Modelled from the spec: `transfer::match_as_response(fragment)`
(transfer.hpp is not under src/), section 3: same with the direction swapped
— the response comes from the transfer's destination peer. -/
def Transfer.matchAsResponse (t : Transfer) (p : Fragment) : Bool :=
  t.destination == p.addr

/-- Modelled from the spec: `transfer::_assign(index, fragment)`
(transfer.hpp is not under src/), section 4.2: place the data at 1-based slot
`index`; if the slot was empty, fill it and update `timestamp_modified`;
silently idempotent on re-delivery (and silently ignores an index outside the
preallocated slot range). -/
def Transfer.assign (t : Transfer) (idx : Nat) (d : List Nat) (now : Nat) : Transfer :=
  if 1 ≤ idx && idx ≤ t.slots.length then
    match t.slots.getD (idx - 1) none with
    | none => { t with slots := t.slots.set (idx - 1) (some d), timestamp_modified := now }
    | some _ => t
  else t

/-- Modelled from the spec: the reassembly constructor `transfer(iid, h)`
(transfer.hpp is not under src/), section 4.2 `new_reassembly`: an empty
transfer with `fragments_total` slots sized from the header, identified by
the header's id and prev_id and keyed to the sending peer. -/
def newReassembly (peer : Nat) (h : Header) (now : Nat) : Transfer :=
  { id := h.id
    prev_id := h.prev_id
    source := peer
    destination := 0
    slots := List.replicate h.fragments_total none
    timestamp_modified := now }

/-- Modelled from the spec: `clock::older_than(ts, d)` (clock.hpp is not
under src/), section 6.1: the timestamp lies more than `d` before `now`. -/
def older_than (ts d now : Nat) : Bool :=
  ts + d < now

/-- `fragmentation_handler::transfer_progress` (fragmentation.hpp lines
135-151).  `tr` is the owning pointer that may be released while the record
lives; `id` caches `tr->get_id()`.  `tag` is a ghost identity used only to
state temporal claims. -/
structure TransferProgress where
  tr : Option Transfer
  timestamp_accessed : Nat
  retransmitions : Nat
  id : Nat
  tag : Nat
deriving DecidableEq, Repr

/-- `transfer_progress::retransmit_done` (fragmentation.hpp line 150). -/
def retransmit_done (now : Nat) (r : TransferProgress) : TransferProgress :=
  { r with timestamp_accessed := now, retransmitions := r.retransmitions + 1 }

/-- The handler state (fragmentation.hpp lines 439-444) together with the
clock (`now`) and the ghost tag supply. -/
structure Handler where
  incoming : List TransferProgress
  outgoing : List TransferProgress
  availableTransmitSlots : Nat
  retransmit_time : Nat
  drop_time : Nat
  retransmit_multiplier : Nat
  mfs : Nat
  now : Nat
  nextTag : Nat
deriving DecidableEq, Repr

/-- `fragmentation_handler::can_transmit` (fragmentation.hpp line 437). -/
def Handler.can_transmit (s : Handler) : Bool :=
  s.availableTransmitSlots != 0

/-- Events observable at the handler's subjects: `transmit_event`,
`transfer_receive_event`, `transfer_ack_event` (fragmentation.hpp lines
319-323).  Transmit and receive events are annotated with the ghost tag of
the progress record that produced them (none would mean unattributed; every
emission in this code is attributable). -/
inductive Event where
  | transmit (tag : Option Nat) (f : Fragment)
  | received (tag : Nat) (t : Transfer)
  | acked (tag : Nat) (id : Nat) (source : Nat) (destination : Nat)
deriving DecidableEq, Repr

/-- `fragmentation_handler::make_header` (fragmentation.hpp lines 332-335):
the fragments_total field is recomputed via `_fragments_count()`. -/
def make_header (s : Handler) (typeCode : Nat) (fragment_pos : Nat) (tr : Transfer) : Header :=
  ⟨typeCode, fragment_pos, Transfer.fragments_count s.mfs tr, tr.id, tr.prev_id⟩

/-- `fragmentation_handler::serialize_fragment` (fragmentation.hpp lines
338-344): materialize the fragment data via `_get_fragment` and push the
serialized header in front. -/
def serialize_fragment (s : Handler) (typeCode : Nat) (fragment_pos : Nat) (tr : Transfer) :
    Except Err Fragment := do
  let p ← Transfer.get_fragment s.mfs tr fragment_pos
  .ok { p with data := (make_header s typeCode fragment_pos tr).to_bytes ++ p.data }

/-- The incoming-table match predicate of `handle_fragment` (fragmentation.hpp
lines 356-363): a record owning a transfer matches when the ids agree and
`tr->match(p)` holds, a grace record (released transfer) matches on the
cached id alone. -/
def incomingMatches (h : Header) (p : Fragment) (r : TransferProgress) : Bool :=
  match r.tr with
  | some tr => tr.id == h.id && tr.matches p
  | none => r.id == h.id

/-- The `types::FRAGMENT` branch of `handle_fragment` restricted to the
table walk (fragmentation.hpp lines 356-402): `std::find_if` with
`incomingMatches`, then either assign into the live transfer, or — for a
grace record — reply with another ACK built from the received header (guarded
by `can_transmit`) and drop the fragment.  Returns `none` when no record
matches (the caller creates a new reassembly). -/
def recvFragIn (s : Handler) (h : Header) (p : Fragment) :
    List TransferProgress → Option (List TransferProgress × List Event)
  | [] => none
  | r :: rest =>
    if incomingMatches h p r then
      match r.tr with
      | some tr =>
        some ({ r with tr := some (tr.assign h.fragment p.data s.now) } :: rest, [])
      | none =>
        if s.can_transmit then
          some (r :: rest,
            [.transmit (some r.tag)
              ⟨p.addr, Header.to_bytes ⟨FRAGMENT_ACK, h.fragment, h.fragments_total, h.id, h.prev_id⟩⟩])
        else
          some (r :: rest, [])
    else
      match recvFragIn s h p rest with
      | some (l, evs) => some (r :: l, evs)
      | none => none

/-- The `_outgoing_transfers` branch of `handle_fragment` (fragmentation.hpp
lines 404-434): `std::find_if` whose predicate dereferences `t.tr`
unconditionally (`t.tr->get_id()`); on a REQ match with `can_transmit` the
requested fragment is re-serialized and the retransmit counter bumped, on an
ACK match the ack event fires and the record is erased; anything unmatched is
silently dropped. -/
def recvCtl (s : Handler) (h : Header) (p : Fragment) :
    List TransferProgress → Except Err (List TransferProgress × List Event)
  | [] => .ok ([], [])
  | r :: rest =>
    match r.tr with
    | none => .error .nullDeref
    | some tr =>
      if tr.id == h.id && tr.matchAsResponse p then
        if h.typeCode == FRAGMENT_REQ && s.can_transmit then do
          let f ← serialize_fragment s FRAGMENT h.fragment tr
          .ok (retransmit_done s.now r :: rest, [.transmit (some r.tag) f])
        else if h.typeCode == FRAGMENT_ACK then
          .ok (rest, [.acked r.tag tr.id tr.source tr.destination])
        else
          .ok (r :: rest, [])
      else do
        let (l, evs) ← recvCtl s h p rest
        .ok (r :: l, evs)

/-- `fragmentation_handler::handle_fragment` (fragmentation.hpp lines
346-435): dispatch on the header type; a FRAGMENT with no matching record
creates a new reassembly (emplaced at the back, ghost tag allocated) and
assigns the received fragment into it. -/
def handle_fragment (s : Handler) (h : Header) (p : Fragment) :
    Except Err (Handler × List Event) :=
  if h.typeCode == FRAGMENT then
    match recvFragIn s h p s.incoming with
    | some (inc, evs) => .ok ({ s with incoming := inc }, evs)
    | none =>
      let t : Transfer := (newReassembly p.addr h s.now).assign h.fragment p.data s.now
      let r : TransferProgress :=
        { tr := some t, timestamp_accessed := s.now, retransmitions := 0,
          id := t.id, tag := s.nextTag }
      .ok ({ s with incoming := s.incoming ++ [r], nextTag := s.nextTag + 1 }, [])
  else do
    let (outs, evs) ← recvCtl s h p s.outgoing
    .ok ({ s with outgoing := outs }, evs)

/-- `fragmentation_handler::receive_callback` (fragmentation.hpp lines
164-180): drop fragments shorter than the header, parse and validate the
header, strip it from the data and dispatch.  (The C++ guard also tests the
fragment's own boolean conversion, defined outside the given sources; a
fragment carrying at least the header bytes is taken to convert to true.) -/
def receive_callback (s : Handler) (p : Fragment) : Except Err (Handler × List Event) :=
  if headerSize ≤ p.data.length then
    let h := parseHeader p.data
    if h.is_valid then
      handle_fragment s h { p with data := p.data.drop headerSize }
    else
      .ok (s, [])
  else
    .ok (s, [])

/-- The fragment burst of `fragmentation_handler::transmit` (fragmentation.hpp
lines 279-288): emit fragments at successive positions while `can_transmit`
holds, stopping early otherwise.  `n` is the number of positions still to
try, `pos` the next 1-based position. -/
def emitBurst (s : Handler) (tr : Transfer) (tag : Nat) :
    Nat → Nat → Except Err (List Event)
  | 0, _ => .ok []
  | n + 1, pos =>
    if s.can_transmit then do
      let f ← serialize_fragment s FRAGMENT pos tr
      let es ← emitBurst s tr tag n (pos + 1)
      .ok (.transmit (some tag) f :: es)
    else
      .ok []

/-- `fragmentation_handler::transmit` (fragmentation.hpp lines 270-290):
emplace a new progress record owning the transfer, emit the burst of
fragments `1..fragments_count` (each emission guarded by `can_transmit`,
breaking on the first failure), then `transmit_done` stamps the access time
(which equals the construction stamp here since the clock does not move
within the call). -/
def Handler.transmit (s : Handler) (t : Transfer) : Except Err (Handler × List Event) := do
  let tag := s.nextTag
  let evs ← emitBurst s t tag (Transfer.fragments_count s.mfs t) 1
  let r : TransferProgress :=
    { tr := some t, timestamp_accessed := s.now, retransmitions := 0, id := t.id, tag := tag }
  .ok ({ s with outgoing := s.outgoing ++ [r], nextTag := s.nextTag + 1 }, evs)

/-- The per-record examination of the incoming loop of `main_task`
(fragmentation.hpp lines 184-240): a grace record is erased after
`5 * drop_time` of no access; a complete transfer (when `can_transmit`) is
acknowledged, surfaced via the receive event and released into grace;
otherwise the record is erased after `drop_time` without modification, or a
FRAGMENT_REQ for the missing index is emitted after `retransmit_time`.
`none` in the first component means the record was erased. -/
def incExamine (s : Handler) (r : TransferProgress) :
    Option TransferProgress × List Event :=
  match r.tr with
  | none =>
    if older_than r.timestamp_accessed (s.drop_time * 5) s.now then (none, [])
    else (some r, [])
  | some tr =>
    if tr.is_complete && s.can_transmit then
      (some { r with tr := none },
        [.transmit (some r.tag)
          ⟨tr.source, (make_header s FRAGMENT_ACK (Transfer.fragments_count s.mfs tr) tr).to_bytes⟩,
         .received r.tag tr])
    else if older_than tr.timestamp_modified s.drop_time s.now then
      (none, [])
    else if s.can_transmit && older_than tr.timestamp_modified s.retransmit_time s.now
        && older_than r.timestamp_accessed s.retransmit_time s.now then
      (some (retransmit_done s.now r),
        [.transmit (some r.tag)
          ⟨tr.source, (make_header s FRAGMENT_REQ tr.missing_fragment tr).to_bytes⟩])
    else
      (some r, [])

/-- The incoming loop of `main_task` (fragmentation.hpp lines 184-240).  The
C++ loop advances the iterator at the end of every iteration even though
`erase` already moved it to the next element, so after an erasure the
immediately following record is carried over without being examined (the code
comments that the next pass will handle it). -/
def incomingPass (s : Handler) : List TransferProgress → List TransferProgress × List Event
  | [] => ([], [])
  | r :: rest =>
    match incExamine s r with
    | (some r', evs) =>
      let (l, es) := incomingPass s rest
      (r' :: l, evs ++ es)
    | (none, evs) =>
      match rest with
      | [] => ([], evs)
      | skipped :: rest2 =>
        let (l, es) := incomingPass s rest2
        (skipped :: l, evs ++ es)

/-- The per-record examination of the outgoing loop of `main_task`
(fragmentation.hpp lines 243-267): erase after `drop_time` of no access;
otherwise, when transmission is possible, the budget `retransmitions <
fragments_count * retransmit_multiplier` still open and `retransmit_time`
expired, re-emit fragment 1 and bump the counter.  The budget check
dereferences `it->tr` whenever `can_transmit` holds (short-circuit order of
the C++ condition).  The C++ loop does not advance the iterator in the
retransmit branch and so re-examines the record; since `retransmit_done` just
stamped `timestamp_accessed` with the current time, both `older_than` guards
of the re-examination are false and it only advances, which is folded in
here. -/
def outExamine (s : Handler) (r : TransferProgress) :
    Except Err (Option TransferProgress × List Event) :=
  if older_than r.timestamp_accessed s.drop_time s.now then
    .ok (none, [])
  else if s.can_transmit then
    match r.tr with
    | none => .error .nullDeref
    | some tr =>
      if r.retransmitions < Transfer.fragments_count s.mfs tr * s.retransmit_multiplier
          && older_than r.timestamp_accessed s.retransmit_time s.now then do
        let f ← serialize_fragment s FRAGMENT 1 tr
        .ok (some (retransmit_done s.now r), [.transmit (some r.tag) f])
      else
        .ok (some r, [])
  else
    .ok (some r, [])

/-- The outgoing loop of `main_task` (fragmentation.hpp lines 243-267): the
iterator either moves to `erase`'s successor or is advanced explicitly, so
every record is examined. -/
def outgoingPass (s : Handler) : List TransferProgress → Except Err (List TransferProgress × List Event)
  | [] => .ok ([], [])
  | r :: rest => do
    let (o, evs) ← outExamine s r
    let (l, es) ← outgoingPass s rest
    match o with
    | some r' => .ok (r' :: l, evs ++ es)
    | none => .ok (l, evs ++ es)

/-- `fragmentation_handler::main_task` (fragmentation.hpp lines 182-268):
the incoming pass followed by the outgoing pass. -/
def Handler.main_task (s : Handler) : Except Err (Handler × List Event) := do
  let (inc, evsI) := incomingPass s s.incoming
  let (outg, evsO) ← outgoingPass s s.outgoing
  .ok ({ s with incoming := inc, outgoing := outg }, evsI ++ evsO)

/-- The entry points the host may invoke: the three handler calls, the
interface status callback (fragmentation.hpp lines 327-330) and the passage
of wall-clock time between calls. -/
inductive Op where
  | recv (p : Fragment)
  | xmit (t : Transfer)
  | tick
  | status (slots : Nat)
  | advance (d : Nat)
deriving DecidableEq, Repr

/-- One entry-point invocation. -/
def step (s : Handler) : Op → Except Err (Handler × List Event)
  | .recv p => receive_callback s p
  | .xmit t => s.transmit t
  | .tick => s.main_task
  | .status n => .ok ({ s with availableTransmitSlots := n }, [])
  | .advance d => .ok ({ s with now := s.now + d }, [])

/-- Run a sequence of entry-point invocations, recording each op with the
events it emitted; a thrown exception terminates the run (the C++ process
aborts there, `receive_callback` being `noexcept`). -/
def runTrace (s : Handler) : List Op → Handler × List (Op × List Event)
  | [] => (s, [])
  | op :: ops =>
    match step s op with
    | .error _ => (s, [])
    | .ok (s', evs) =>
      let (s'', tr) := runTrace s' ops
      (s'', (op, evs) :: tr)

/-- All events of a trace, in emission order. -/
def traceEvents (tr : List (Op × List Event)) : List Event :=
  (tr.map (fun x => x.2)).flatten

/-- The events emitted by the `main_task` invocations of a trace. -/
def tickEvents (tr : List (Op × List Event)) : List Event :=
  (tr.filterMap (fun x => match x with
    | (.tick, evs) => some evs
    | _ => none)).flatten

/-- Does the event carry this ghost tag? -/
def taggedBy (τ : Nat) : Event → Bool
  | .transmit (some t) _ => t == τ
  | .transmit none _ => false
  | .received t _ => t == τ
  | .acked t _ _ _ => t == τ

/-- A `transmit_event` emission attributed to the record with ghost tag τ. -/
def isTxFor (τ : Nat) : Event → Bool
  | .transmit (some t) _ => t == τ
  | _ => false

/-- A `transmit_event` emission attributed to tag τ whose serialized header
has type `FRAGMENT`. -/
def isFragTxFor (τ : Nat) : Event → Bool
  | .transmit (some t) f => t == τ && (parseHeader f.data).typeCode == FRAGMENT
  | _ => false

/-- A `transfer_ack_event` emission for the record with ghost tag τ. -/
def isAckFor (τ : Nat) : Event → Bool
  | .acked t _ _ _ => t == τ
  | _ => false

/-- Any `transmit_event` emission. -/
def isTx : Event → Bool
  | .transmit _ _ => true
  | _ => false

/-- The ghost tags of a record list. -/
def tags (l : List TransferProgress) : List Nat :=
  l.map (fun r => r.tag)

/-- The state invariant maintained by the handler: ghost tags are distinct
across both tables and below the tag supply, and every outgoing record owns
its transfer (`tr` non-null). -/
def Inv (s : Handler) : Prop :=
  (tags s.incoming ++ tags s.outgoing).Nodup
  ∧ (∀ τ ∈ tags s.incoming ++ tags s.outgoing, τ < s.nextTag)
  ∧ (∀ r ∈ s.outgoing, r.tr.isSome = true)

instance (s : Handler) : Decidable (Inv s) := by
  unfold Inv; infer_instance

/-- A freshly constructed handler (fragmentation.hpp lines 156-159): both
tables empty, no status observed yet. -/
def mkHandler (mfs rt dt mult : Nat) : Handler :=
  { incoming := [], outgoing := [], availableTransmitSlots := 0,
    retransmit_time := rt, drop_time := dt, retransmit_multiplier := mult,
    mfs := mfs, now := 0, nextTag := 0 }

/-- States reachable from a freshly constructed handler through successful
entry-point invocations. -/
inductive Reachable : Handler → Prop where
  | init (mfs rt dt mult : Nat) : Reachable (mkHandler mfs rt dt mult)
  | step {s s' : Handler} {op : Op} {evs : List Event} :
      Reachable s → step s op = .ok (s', evs) → Reachable s'

/-- Did the computation throw? -/
def isErr {α : Type} : Except Err α → Bool
  | .error _ => true
  | .ok _ => false

/-! ### Concrete example states used by counterexamples and witnesses -/

/-- A single-fragment outgoing transfer: one data byte, from us (address 1)
to peer 2, id 7, prev_id 6. -/
def exT1 : Transfer := ⟨7, 6, 1, 2, [some [9]], 0⟩

/-- A handler holding `exT1` as its only outgoing record, one transmit slot
available. -/
def exS1 : Handler := ⟨[], [⟨some exT1, 0, 0, 7, 0⟩], 1, 100, 1000, 2, 4, 0, 1⟩

/-- A valid FRAGMENT_REQ from peer 2 for transfer 7 claiming 3 fragments and
requesting index 3 — out of range for `exT1`, which has a single fragment. -/
def exP1 : Fragment := ⟨2, Header.to_bytes ⟨FRAGMENT_REQ, 3, 3, 7, 6⟩⟩

/-- A two-byte outgoing transfer (a single fragment under `mfs = 4`). -/
def exT2 : Transfer := ⟨7, 6, 1, 2, [some [9, 9]], 0⟩

/-- A valid FRAGMENT_REQ from peer 2 for fragment 1 of transfer 7. -/
def exReq2 : Fragment := ⟨2, Header.to_bytes ⟨FRAGMENT_REQ, 1, 1, 7, 6⟩⟩

/-- Fresh handler with `retransmit_multiplier = 1`. -/
def exS2 : Handler := mkHandler 4 100 1000 1

/-- `exS2` with one transmit slot open. -/
def exS2b : Handler := { exS2 with availableTransmitSlots := 1 }

/-- Open one transmit slot, send `exT2` (N = 1 fragment), then let the peer
request fragment 1 three times. -/
def exOps2 : List Op := [.status 1, .xmit exT2, .recv exReq2, .recv exReq2, .recv exReq2]

/-- The grace-state record that the main_task pass of `exS3` erases. -/
def exR3a : TransferProgress := ⟨none, 0, 0, 7, 0⟩

/-- The grace-state record immediately after it, equally overdue. -/
def exR3b : TransferProgress := ⟨none, 0, 0, 8, 1⟩

/-- Two grace-state incoming records, both past `5 * drop_time` (drop_time 1,
now 10). -/
def exS3 : Handler := ⟨[exR3a, exR3b], [], 1, 100, 1, 2, 4, 10, 2⟩

/-- A four-byte emission transfer: `(2-1) * mfs = data_size` exactly. -/
def exT5 : Transfer := ⟨7, 6, 1, 2, [some [1, 2, 3, 4]], 0⟩

/-- An emission transfer with an empty payload: zero slots, complete,
`data_size = 0`. -/
def exT7 : Transfer := ⟨5, 4, 1, 2, [], 0⟩

/-- A handler whose only incoming record is in grace (released transfer,
cached id 7), one transmit slot available. -/
def exS8 : Handler := ⟨[⟨none, 0, 0, 7, 3⟩], [], 1, 100, 1000, 2, 4, 0, 4⟩

/-- A valid FRAGMENT header for transfer 7, fragment 2 of 3. -/
def exH8 : Header := ⟨1, 2, 3, 7, 6⟩

/-- The already-stripped payload of the duplicate fragment from peer 9. -/
def exP8 : Fragment := ⟨9, [5, 5]⟩

/-- A complete two-slot reassembly from peer 3 whose fragments carried one
byte each: `data_size = 2`, so under `mfs = 4` the recomputed fragment count
is 1 although the sender used 2 fragments. -/
def exT10 : Transfer := ⟨7, 6, 3, 0, [some [9], some [8]], 0⟩

/-- A handler holding `exT10` as its only (complete) incoming record. -/
def exS10 : Handler := ⟨[⟨some exT10, 0, 0, 7, 5⟩], [], 1, 100, 1000, 2, 4, 0, 6⟩

/-- The ghost tag an event is attributed to. -/
def evTag : Event → Option Nat
  | .transmit t _ => t
  | .received t _ => some t
  | .acked t _ _ _ => some t

/-- The retransmission budget of an outgoing record:
`fragments_count * retransmit_multiplier` as computed by `main_task`
(fragmentation.hpp line 254). -/
def capOf (mfs mult : Nat) (r : TransferProgress) : Nat :=
  (match r.tr with
   | some tr => Transfer.fragments_count mfs tr
   | none => 0) * mult

/-- The remaining `main_task` retransmission potential of the record tagged τ
in a record list: budget minus retransmissions performed so far; 0 when no
such record exists. -/
def potOf (mfs mult τ : Nat) (l : List TransferProgress) : Nat :=
  match l.find? (fun r => r.tag == τ) with
  | some r => capOf mfs mult r - r.retransmitions
  | none => 0

/-- What a single successful entry-point invocation guarantees, as used by the
trace-level arguments: invariant preservation, tag-supply monotonicity,
configuration constancy, silence of dead tags, the at-most-one-ack shape of
each invocation, and the retransmission-potential accounting of the periodic
pass. -/
def StepFacts (s s' : Handler) (op : Op) (evs : List Event) : Prop :=
  Inv s'
  ∧ s.nextTag ≤ s'.nextTag
  ∧ s'.mfs = s.mfs
  ∧ s'.retransmit_multiplier = s.retransmit_multiplier
  ∧ (∀ τ, τ < s.nextTag → τ ∉ tags s.incoming ++ tags s.outgoing →
      (∀ e ∈ evs, ¬evTag e = some τ) ∧ τ ∉ tags s'.incoming ++ tags s'.outgoing)
  ∧ (∀ τ, evs.countP (isAckFor τ) ≤ 1
      ∧ (evs.countP (isAckFor τ) = 1 →
          τ ∈ tags s.outgoing ∧ τ ∉ tags s'.incoming ++ tags s'.outgoing))
  ∧ (∀ τ, τ < s.nextTag → τ ∉ tags s.incoming →
      τ ∉ tags s'.incoming
      ∧ potOf s.mfs s.retransmit_multiplier τ s'.outgoing
          ≤ potOf s.mfs s.retransmit_multiplier τ s.outgoing
      ∧ (op = Op.tick →
          evs.countP (isTxFor τ) + potOf s.mfs s.retransmit_multiplier τ s'.outgoing
            ≤ potOf s.mfs s.retransmit_multiplier τ s.outgoing))

end sp

namespace sp

/-! ## Theorems -/

/-- Claim C1: the claim states that every malformed or unexpected input —
including out-of-range fragment indices — is silently dropped and
`receive_callback` never throws.  The code violates this: a FRAGMENT_REQ with
a valid header that matches an outgoing transfer but requests an index beyond
that transfer's data makes `transfer_wrapper::_get_fragment` throw
`std::invalid_argument` inside the `noexcept` `receive_callback` (so the C++
process calls `std::terminate`).  This theorem evaluates the embedded code at
the failing input. -/
theorem C1_req_out_of_range_throws :
    receive_callback exS1 exP1 = .error (.invalidArg "fragment_pos beyond data_size") := by
  rfl

/-- Claim C5 counterexample: the claim says `get_fragment i` fails whenever
`(i-1) * max_fragment_size ≥ |payload|`.  At the boundary
`(i-1) * max_fragment_size = |payload|` the code's strict `>` check does not
fire and an empty fragment is returned without error. -/
theorem C5_boundary_not_an_error :
    Transfer.data_size exT5 = 4
    ∧ Transfer.data_size exT5 ≤ (2 - 1) * 4
    ∧ Transfer.get_fragment 4 exT5 2 = .ok ⟨2, []⟩ := by
  refine ⟨rfl, by decide, rfl⟩

/-- Claim C5 amended: `get_fragment i` fails (with the modelled
`std::invalid_argument`) if and only if `i = 0` or
`(i-1) * max_fragment_size > |payload|` (strict); for every other `i` it
returns a fragment without error. -/
theorem C5_amended_error_iff (mfs : Nat) (t : Transfer) (i : Nat) :
    isErr (Transfer.get_fragment mfs t i) = true ↔ i = 0 ∨ (i - 1) * mfs > t.data_size := by
  unfold Transfer.get_fragment
  by_cases h0 : i = 0
  · simp [h0, isErr]
  · simp only [beq_iff_eq, h0, if_false]
    by_cases hgt : (i - 1) * mfs > t.data_size
    · simp [hgt, isErr]
    · simp [hgt, isErr, h0]

/-- Claim C3 counterexample: the claim says an erasure performed mid-pass
never causes a not-yet-examined record to be skipped.  With two grace records
both past `5 * drop_time`, one `main_task` pass erases the first and then
advances past the second, leaving it in the table even though examining it
would have erased it too. -/
theorem C3_erase_skips_next_record :
    Handler.main_task exS3 = .ok ({ exS3 with incoming := [exR3b] }, [])
    ∧ incExamine exS3 exR3b = (none, []) := by
  exact ⟨rfl, rfl⟩

/-- Claim C7 counterexample: the claim says every transfer accepted by
`transmit()` satisfies `fragments_count ≥ 1`.  An emission transfer with an
empty payload is accepted and stored, and its `_fragments_count()` — computed
as `⌈0 / max_fragment_size⌉` — is 0. -/
theorem C7_empty_transfer_stored_with_count_zero :
    Handler.transmit (mkHandler 4 100 1000 2) exT7
      = .ok ({ mkHandler 4 100 1000 2 with
                outgoing := [⟨some exT7, 0, 0, 5, 0⟩], nextTag := 1 }, [])
    ∧ Transfer.fragments_count (mkHandler 4 100 1000 2).mfs exT7 = 0 := by
  exact ⟨rfl, rfl⟩

/-- Claim C2 counterexample: the claim bounds the lifetime FRAGMENT emissions
of an outgoing transfer of N fragments by `N + N * retransmit_multiplier`.
With N = 1 and multiplier 1 the bound is 2, but after the initial burst three
FRAGMENT_REQ arrivals each trigger an unbudgeted retransmission: 4 FRAGMENT
emissions are attributable to the transfer (ghost tag 0). -/
theorem C2_req_path_exceeds_budget :
    (traceEvents (runTrace exS2 exOps2).2).countP (isFragTxFor 0) = 4
    ∧ Transfer.fragments_count exS2.mfs exT2
        + Transfer.fragments_count exS2.mfs exT2 * exS2.retransmit_multiplier
      < (traceEvents (runTrace exS2 exOps2).2).countP (isFragTxFor 0) := by
  exact ⟨by decide, by decide⟩

end sp

namespace sp

/-! ### Helper lemmas about events -/

lemma isTxFor_evTag {τ : Nat} {e : Event} (h : isTxFor τ e = true) : evTag e = some τ := by
  cases e with
  | transmit t f =>
    cases t with
    | some t' => simp only [isTxFor, beq_iff_eq] at h; simp [evTag, h]
    | none => simp [isTxFor] at h
  | received t tr => simp [isTxFor] at h
  | acked t i a b => simp [isTxFor] at h

lemma isAckFor_evTag {τ : Nat} {e : Event} (h : isAckFor τ e = true) : evTag e = some τ := by
  cases e with
  | transmit t f => simp [isAckFor] at h
  | received t tr => simp [isAckFor] at h
  | acked t i a b => simp only [isAckFor, beq_iff_eq] at h; simp [evTag, h]

lemma isFragTxFor_isTxFor {τ : Nat} {e : Event} (h : isFragTxFor τ e = true) :
    isTxFor τ e = true := by
  cases e with
  | transmit t f =>
    cases t with
    | some t' =>
      simp only [isFragTxFor, Bool.and_eq_true, beq_iff_eq] at h
      simp [isTxFor, h.1]
    | none => simp [isFragTxFor] at h
  | received t tr => simp [isFragTxFor] at h
  | acked t i a b => simp [isFragTxFor] at h

lemma transmit_not_ack {t : Option Nat} {f : Fragment} {τ : Nat} :
    isAckFor τ (.transmit t f) = false := rfl

lemma received_not_ack {t : Nat} {tr : Transfer} {τ : Nat} :
    isAckFor τ (.received t tr) = false := rfl

/-! ### Helper lemmas about the incoming find of handle_fragment -/

lemma recvFragIn_ok {s : Handler} {h : Header} {p : Fragment} :
    ∀ {l : List TransferProgress} {res : List TransferProgress × List Event},
    recvFragIn s h p l = some res →
    tags res.1 = tags l
    ∧ (∀ e ∈ res.2, (∃ r ∈ l, evTag e = some r.tag) ∧ ∀ τ, isAckFor τ e = false)
    ∧ (s.can_transmit = false → res.2 = []) := by
  intro l
  induction l with
  | nil => intro res he; simp [recvFragIn] at he
  | cons r rest ih =>
    intro res he
    simp only [recvFragIn] at he
    split at he
    · split at he
      · rw [Option.some_inj] at he
        subst he
        refine ⟨rfl, ?_, fun _ => rfl⟩
        intro e hev; cases hev
      · split at he
        · rw [Option.some_inj] at he
          subst he
          refine ⟨rfl, ?_, ?_⟩
          · intro e hev
            simp only [List.mem_singleton] at hev
            subst hev
            exact ⟨⟨r, List.mem_cons_self .., rfl⟩, fun τ => transmit_not_ack⟩
          · intro hf
            rename_i hct
            rw [hf] at hct; cases hct
        · rw [Option.some_inj] at he
          subst he
          refine ⟨rfl, ?_, fun _ => rfl⟩
          intro e hev; cases hev
    · split at he
      · rename_i lv hrec
        rw [Option.some_inj] at he
        subst he
        obtain ⟨ht, hev, hctf⟩ := ih hrec
        refine ⟨?_, ?_, hctf⟩
        · simpa [tags] using ht
        · intro e hev'
          obtain ⟨⟨r2, hr2, he2⟩, hna⟩ := hev e hev'
          exact ⟨⟨r2, List.mem_cons_of_mem _ hr2, he2⟩, hna⟩
      · cases he

end sp

namespace sp

/-! ### Helper lemmas about Except plumbing and serialize_fragment -/

lemma except_bind_ok {α β : Type} (a : α) (f : α → Except Err β) :
    (Except.ok a >>= f) = f a := rfl

lemma except_bind_error {α β : Type} (e : Err) (f : α → Except Err β) :
    ((Except.error e : Except Err α) >>= f) = .error e := rfl

lemma get_fragment_error {mfs : Nat} {t : Transfer} {pos : Nat} {e : Err}
    (h : Transfer.get_fragment mfs t pos = .error e) : ∃ m, e = .invalidArg m := by
  unfold Transfer.get_fragment at h
  split at h
  · exact ⟨_, (Except.error.injEq .. ▸ h).symm⟩
  · split at h
    · exact ⟨_, (Except.error.injEq .. ▸ h).symm⟩
    · cases h

lemma serialize_fragment_error {s : Handler} {c pos : Nat} {tr : Transfer} {e : Err}
    (h : serialize_fragment s c pos tr = .error e) : ∃ m, e = .invalidArg m := by
  unfold serialize_fragment at h
  rcases hg : Transfer.get_fragment s.mfs tr pos with e' | f
  · rw [hg, except_bind_error] at h
    cases h
    exact get_fragment_error hg
  · rw [hg, except_bind_ok] at h
    cases h

lemma serialize_fragment_one_ok (s : Handler) (c : Nat) (tr : Transfer) :
    ∃ f, serialize_fragment s c 1 tr = .ok f := by
  unfold serialize_fragment Transfer.get_fragment
  simp [except_bind_ok]

/-! ### The outgoing find of handle_fragment -/

lemma recvCtl_ok {s : Handler} {h : Header} {p : Fragment} :
    ∀ {l : List TransferProgress} {res : List TransferProgress × List Event},
    recvCtl s h p l = .ok res →
    res = (l, [])
    ∨ (∃ l1 r tr l2 f, l = l1 ++ r :: l2 ∧ r.tr = some tr ∧ s.can_transmit = true
        ∧ res = (l1 ++ retransmit_done s.now r :: l2, [.transmit (some r.tag) f]))
    ∨ (∃ l1 r tr l2, l = l1 ++ r :: l2 ∧ r.tr = some tr
        ∧ res = (l1 ++ l2, [.acked r.tag tr.id tr.source tr.destination])) := by
  intro l
  induction l with
  | nil =>
    intro res he
    simp only [recvCtl] at he
    rw [Except.ok.injEq] at he
    exact Or.inl he.symm
  | cons r rest ih =>
    intro res he
    simp only [recvCtl] at he
    split at he
    · cases he
    · rename_i tr htr
      split at he
      · rename_i hmatch
        split at he
        · rename_i hreq
          rcases hser : serialize_fragment s FRAGMENT h.fragment tr with e | f
          · rw [hser, except_bind_error] at he; cases he
          · rw [hser, except_bind_ok, Except.ok.injEq] at he
            refine Or.inr (Or.inl ⟨[], r, tr, rest, f, rfl, htr, ?_, he.symm⟩)
            simp only [Bool.and_eq_true] at hreq
            exact hreq.2
        · split at he
          · rw [Except.ok.injEq] at he
            exact Or.inr (Or.inr ⟨[], r, tr, rest, rfl, htr, he.symm⟩)
          · rw [Except.ok.injEq] at he
            exact Or.inl he.symm
      · rcases hrec : recvCtl s h p rest with e | lv
        · rw [hrec, except_bind_error] at he; cases he
        · obtain ⟨l2, evs2⟩ := lv
          rw [hrec, except_bind_ok, Except.ok.injEq] at he
          rcases ih hrec with hsame | hretr | hack
          · rw [Prod.mk.injEq] at hsame
            refine Or.inl ?_
            rw [← he, hsame.1, hsame.2]
          · obtain ⟨l1, r', tr', l2', f, hleq, htr', hct, hres⟩ := hretr
            rw [Prod.mk.injEq] at hres
            refine Or.inr (Or.inl ⟨r :: l1, r', tr', l2', f, by rw [hleq]; rfl, htr', hct, ?_⟩)
            rw [← he, hres.1, hres.2]
            rfl
          · obtain ⟨l1, r', tr', l2', hleq, htr', hres⟩ := hack
            rw [Prod.mk.injEq] at hres
            refine Or.inr (Or.inr ⟨r :: l1, r', tr', l2', by rw [hleq]; rfl, htr', ?_⟩)
            rw [← he, hres.1, hres.2]
            rfl

lemma recvCtl_no_nullDeref {s : Handler} {h : Header} {p : Fragment} :
    ∀ {l : List TransferProgress}, (∀ r ∈ l, r.tr.isSome = true) →
    recvCtl s h p l ≠ .error .nullDeref := by
  intro l
  induction l with
  | nil => intro _ hc; simp [recvCtl] at hc
  | cons r rest ih =>
    intro hsome hc
    simp only [recvCtl] at hc
    split at hc
    · rename_i htr
      have := hsome r (List.mem_cons_self ..)
      rw [htr] at this; cases this
    · rename_i tr htr
      split at hc
      · split at hc
        · rcases hser : serialize_fragment s FRAGMENT h.fragment tr with e | f
          · rw [hser, except_bind_error] at hc
            obtain ⟨m, hm⟩ := serialize_fragment_error hser
            rw [Except.error.injEq] at hc
            rw [hm] at hc; cases hc
          · rw [hser, except_bind_ok] at hc; cases hc
        · split at hc
          · cases hc
          · cases hc
      · rcases hrec : recvCtl s h p rest with e | lv
        · rw [hrec, except_bind_error] at hc
          rw [Except.error.injEq] at hc
          rw [hc] at hrec
          exact ih (fun r' hr' => hsome r' (List.mem_cons_of_mem _ hr')) hrec
        · rw [hrec, except_bind_ok] at hc
          obtain ⟨l2, evs2⟩ := lv
          cases hc

end sp

namespace sp

/-! ### Burst lemmas -/

lemma emitBurst_ok {s : Handler} {tr : Transfer} {tag : Nat} :
    ∀ {n pos : Nat} {evs : List Event}, emitBurst s tr tag n pos = .ok evs →
    evs.length ≤ n ∧ ∀ e ∈ evs, ∃ f, e = .transmit (some tag) f := by
  intro n
  induction n with
  | zero =>
    intro pos evs he
    simp only [emitBurst] at he
    rw [Except.ok.injEq] at he
    subst he
    exact ⟨Nat.le_refl _, (by intro e h; cases h)⟩
  | succ n ih =>
    intro pos evs he
    simp only [emitBurst] at he
    split at he
    · rcases hser : serialize_fragment s FRAGMENT pos tr with e | f
      · rw [hser, except_bind_error] at he; cases he
      · rw [hser, except_bind_ok] at he
        rcases hrec : emitBurst s tr tag n (pos + 1) with e' | evs'
        · rw [hrec, except_bind_error] at he; cases he
        · rw [hrec, except_bind_ok, Except.ok.injEq] at he
          subst he
          obtain ⟨hlen, hall⟩ := ih hrec
          refine ⟨by simpa using Nat.succ_le_succ hlen, ?_⟩
          intro e hmem
          rcases List.mem_cons.mp hmem with rfl | hmem'
          · exact ⟨f, rfl⟩
          · exact hall e hmem'
    · rw [Except.ok.injEq] at he
      subst he
      exact ⟨Nat.zero_le _, (by intro e h; cases h)⟩

lemma emitBurst_ct_false {s : Handler} {tr : Transfer} {tag : Nat}
    (hct : s.can_transmit = false) :
    ∀ {n pos : Nat} {evs : List Event}, emitBurst s tr tag n pos = .ok evs → evs = [] := by
  intro n
  cases n with
  | zero =>
    intro pos evs he
    simp only [emitBurst] at he
    rw [Except.ok.injEq] at he
    exact he.symm
  | succ n =>
    intro pos evs he
    simp only [emitBurst, hct, Bool.false_eq_true, if_false] at he
    rw [Except.ok.injEq] at he
    exact he.symm

/-! ### Incoming pass lemmas -/

lemma incExamine_spec {s : Handler} {r : TransferProgress}
    {o : Option TransferProgress} {evs : List Event}
    (hx : incExamine s r = (o, evs)) :
    (∀ e ∈ evs, evTag e = some r.tag ∧ ∀ τ, isAckFor τ e = false)
    ∧ (o = none ∨ ∃ r', o = some r' ∧ r'.tag = r.tag)
    ∧ (s.can_transmit = false → evs = []) := by
  unfold incExamine at hx
  split at hx
  · split at hx
    · cases hx
      exact ⟨(by intro e h; cases h), Or.inl rfl, fun _ => rfl⟩
    · cases hx
      exact ⟨(by intro e h; cases h), Or.inr ⟨r, rfl, rfl⟩, fun _ => rfl⟩
  · rename_i tr htr
    split at hx
    · rename_i hcc
      cases hx
      refine ⟨?_, Or.inr ⟨_, rfl, rfl⟩, ?_⟩
      · intro e he
        rcases List.mem_cons.mp he with rfl | he'
        · exact ⟨rfl, fun τ => transmit_not_ack⟩
        · rcases List.mem_singleton.mp he' with rfl
          exact ⟨rfl, fun τ => received_not_ack⟩
      · intro hf
        rw [Bool.and_eq_true] at hcc
        rw [hf] at hcc
        cases hcc.2
    · split at hx
      · cases hx
        exact ⟨(by intro e h; cases h), Or.inl rfl, fun _ => rfl⟩
      · split at hx
        · rename_i hcc
          cases hx
          refine ⟨?_, Or.inr ⟨_, rfl, rfl⟩, ?_⟩
          · intro e he
            rcases List.mem_singleton.mp he with rfl
            exact ⟨rfl, fun τ => transmit_not_ack⟩
          · intro hf
            rw [Bool.and_eq_true, Bool.and_eq_true] at hcc
            rw [hf] at hcc
            cases hcc.1.1
        · cases hx
          exact ⟨(by intro e h; cases h), Or.inr ⟨r, rfl, rfl⟩, fun _ => rfl⟩

lemma incomingPass_spec (s : Handler) :
    ∀ (n : Nat) (l : List TransferProgress), l.length ≤ n →
    List.Sublist (tags (incomingPass s l).1) (tags l)
    ∧ (∀ e ∈ (incomingPass s l).2, (∃ r ∈ l, evTag e = some r.tag) ∧ ∀ τ, isAckFor τ e = false)
    ∧ (s.can_transmit = false → (incomingPass s l).2 = []) := by
  intro n
  induction n with
  | zero =>
    intro l hl
    rw [Nat.le_zero, List.length_eq_zero] at hl
    subst hl
    exact ⟨List.Sublist.refl _, (by intro e h; cases h), fun _ => rfl⟩
  | succ n ih =>
    intro l hl
    cases l with
    | nil => exact ⟨List.Sublist.refl _, (by intro e h; cases h), fun _ => rfl⟩
    | cons r rest =>
      rcases hx : incExamine s r with ⟨o, evs⟩
      obtain ⟨hev, ho, hctf⟩ := incExamine_spec hx
      cases o with
      | some r' =>
        have hrest := ih rest (Nat.le_of_succ_le_succ (by simpa using hl))
        obtain ⟨hsub, hev2, hctf2⟩ := hrest
        have hpass : incomingPass s (r :: rest)
            = (r' :: (incomingPass s rest).1, evs ++ (incomingPass s rest).2) := by
          simp only [incomingPass, hx]
        rw [hpass]
        rcases ho with hno | ⟨r'', hr'', htag⟩
        · cases hno
        · rw [Option.some_inj] at hr''
          subst hr''
          refine ⟨?_, ?_, ?_⟩
          · simpa [tags, htag] using List.Sublist.cons₂ r.tag hsub
          · intro e he
            rcases List.mem_append.mp he with he' | he'
            · obtain ⟨het, hna⟩ := hev e he'
              exact ⟨⟨r, List.mem_cons_self .., het⟩, hna⟩
            · obtain ⟨⟨r2, hr2, het⟩, hna⟩ := hev2 e he'
              exact ⟨⟨r2, List.mem_cons_of_mem _ hr2, het⟩, hna⟩
          · intro hf
            rw [hctf hf, hctf2 hf]
            rfl
      | none =>
        cases rest with
        | nil =>
          have hpass : incomingPass s [r] = ([], evs) := by
            simp only [incomingPass, hx]
          rw [hpass]
          refine ⟨List.nil_sublist _, ?_, hctf⟩
          intro e he
          obtain ⟨het, hna⟩ := hev e he
          exact ⟨⟨r, List.mem_cons_self .., het⟩, hna⟩
        | cons skipped rest2 =>
          have hrest := ih rest2 (by
            have : rest2.length + 2 ≤ n + 1 := by simpa using hl
            omega)
          obtain ⟨hsub, hev2, hctf2⟩ := hrest
          have hpass : incomingPass s (r :: skipped :: rest2)
              = (skipped :: (incomingPass s rest2).1, evs ++ (incomingPass s rest2).2) := by
            simp only [incomingPass, hx]
          rw [hpass]
          refine ⟨?_, ?_, ?_⟩
          · exact List.Sublist.cons r.tag (List.Sublist.cons₂ skipped.tag hsub)
          · intro e he
            rcases List.mem_append.mp he with he' | he'
            · obtain ⟨het, hna⟩ := hev e he'
              exact ⟨⟨r, List.mem_cons_self .., het⟩, hna⟩
            · obtain ⟨⟨r2, hr2, het⟩, hna⟩ := hev2 e he'
              exact ⟨⟨r2, List.mem_cons_of_mem _ (List.mem_cons_of_mem _ hr2), het⟩, hna⟩
          · intro hf
            rw [hctf hf, hctf2 hf]
            rfl

end sp

namespace sp

/-! ### Outgoing pass lemmas -/

lemma capOf_retransmit_done (mfs mult now : Nat) (r : TransferProgress) :
    capOf mfs mult (retransmit_done now r) = capOf mfs mult r := rfl

lemma potOf_cons_pos {mfs mult τ : Nat} {r : TransferProgress} {l : List TransferProgress}
    (h : r.tag = τ) :
    potOf mfs mult τ (r :: l) = capOf mfs mult r - r.retransmitions := by
  unfold potOf
  rw [List.find?_cons_of_pos _ (by simp [h])]

lemma potOf_cons_neg {mfs mult τ : Nat} {r : TransferProgress} {l : List TransferProgress}
    (h : ¬r.tag = τ) :
    potOf mfs mult τ (r :: l) = potOf mfs mult τ l := by
  unfold potOf
  rw [List.find?_cons_of_neg _ (by simp [h])]

lemma potOf_eq_zero {mfs mult τ : Nat} {l : List TransferProgress}
    (h : τ ∉ tags l) :
    potOf mfs mult τ l = 0 := by
  unfold potOf
  rw [List.find?_eq_none.mpr]
  intro r hr hq
  rw [beq_iff_eq] at hq
  exact h (hq ▸ List.mem_map.mpr ⟨r, hr, rfl⟩)

lemma outExamine_spec {s : Handler} {r : TransferProgress}
    {o : Option TransferProgress} {evs : List Event}
    (hx : outExamine s r = .ok (o, evs)) :
    (∀ e ∈ evs, evTag e = some r.tag ∧ (∀ τ, isAckFor τ e = false) ∧ isTx e = true)
    ∧ (∀ r', o = some r' → r'.tag = r.tag ∧ r'.tr = r.tr)
    ∧ (s.can_transmit = false → evs = [])
    ∧ (o = none ∧ evs = []
       ∨ (o = some r ∧ evs = [])
       ∨ (∃ f, o = some (retransmit_done s.now r) ∧ evs = [.transmit (some r.tag) f]
           ∧ r.retransmitions < capOf s.mfs s.retransmit_multiplier r)) := by
  unfold outExamine at hx
  split at hx
  · rw [Except.ok.injEq, Prod.mk.injEq] at hx
    obtain ⟨ho, hevs⟩ := hx
    subst ho; subst hevs
    exact ⟨(by intro e h; cases h), (by intro r' h; cases h), fun _ => rfl,
      Or.inl ⟨rfl, rfl⟩⟩
  · split at hx
    · rename_i hct
      split at hx
      · cases hx
      · rename_i tr htr
        split at hx
        · rename_i hb
          rcases hser : serialize_fragment s FRAGMENT 1 tr with e | f
          · rw [hser, except_bind_error] at hx; cases hx
          · rw [hser, except_bind_ok, Except.ok.injEq, Prod.mk.injEq] at hx
            obtain ⟨ho, hevs⟩ := hx
            subst ho; subst hevs
            rw [Bool.and_eq_true] at hb
            have hlt : r.retransmitions
                < Transfer.fragments_count s.mfs tr * s.retransmit_multiplier :=
              of_decide_eq_true hb.1
            refine ⟨?_, ?_, ?_, Or.inr (Or.inr ⟨f, rfl, rfl, ?_⟩)⟩
            · intro e he
              rcases List.mem_singleton.mp he with rfl
              exact ⟨rfl, fun τ => transmit_not_ack, rfl⟩
            · intro r' h
              rw [Option.some_inj] at h
              subst h
              exact ⟨rfl, rfl⟩
            · intro hf; rw [hf] at hct; cases hct
            · unfold capOf
              rw [htr]
              exact hlt
        · rw [Except.ok.injEq, Prod.mk.injEq] at hx
          obtain ⟨ho, hevs⟩ := hx
          subst ho; subst hevs
          refine ⟨(by intro e h; cases h), ?_, fun _ => rfl, Or.inr (Or.inl ⟨rfl, rfl⟩)⟩
          intro r' h
          rw [Option.some_inj] at h
          subst h
          exact ⟨rfl, rfl⟩
    · rw [Except.ok.injEq, Prod.mk.injEq] at hx
      obtain ⟨ho, hevs⟩ := hx
      subst ho; subst hevs
      refine ⟨(by intro e h; cases h), ?_, fun _ => rfl, Or.inr (Or.inl ⟨rfl, rfl⟩)⟩
      intro r' h
      rw [Option.some_inj] at h
      subst h
      exact ⟨rfl, rfl⟩

lemma outExamine_total (s : Handler) {r : TransferProgress}
    (hsome : r.tr.isSome = true) :
    ∃ res, outExamine s r = .ok res := by
  rcases htr : r.tr with _ | tr
  · rw [htr] at hsome; cases hsome
  · simp only [outExamine, htr]
    split
    · exact ⟨_, rfl⟩
    · split
      · split
        · obtain ⟨f, hf⟩ := serialize_fragment_one_ok s FRAGMENT tr
          rw [hf, except_bind_ok]
          exact ⟨_, rfl⟩
        · exact ⟨_, rfl⟩
      · exact ⟨_, rfl⟩

lemma outgoingPass_spec {s : Handler} :
    ∀ {l l' : List TransferProgress} {evs : List Event},
    outgoingPass s l = .ok (l', evs) →
    List.Sublist (tags l') (tags l)
    ∧ (∀ e ∈ evs, (∃ r ∈ l, evTag e = some r.tag) ∧ (∀ τ, isAckFor τ e = false) ∧ isTx e = true)
    ∧ (∀ r' ∈ l', ∃ r ∈ l, r'.tr = r.tr)
    ∧ (s.can_transmit = false → evs = []) := by
  intro l
  induction l with
  | nil =>
    intro l' evs he
    simp only [outgoingPass] at he
    rw [Except.ok.injEq, Prod.mk.injEq] at he
    obtain ⟨h1, h2⟩ := he
    subst h1; subst h2
    exact ⟨List.Sublist.refl _, (by intro e h; cases h), (by intro r' h; cases h), fun _ => rfl⟩
  | cons r rest ih =>
    intro l' evs he
    simp only [outgoingPass] at he
    rcases hx : outExamine s r with e | ⟨o, evsr⟩
    · rw [hx, except_bind_error] at he; cases he
    · rw [hx, except_bind_ok] at he
      rcases hrest : outgoingPass s rest with e' | ⟨lrest, evsrest⟩
      · rw [hrest, except_bind_error] at he; cases he
      · rw [hrest, except_bind_ok] at he
        obtain ⟨hsub, hev2, hsome2, hctf2⟩ := ih hrest
        obtain ⟨hev1, htagtr, hctf1, _⟩ := outExamine_spec hx
        cases o with
        | some r' =>
          rw [Except.ok.injEq, Prod.mk.injEq] at he
          obtain ⟨h1, h2⟩ := he
          subst h1; subst h2
          obtain ⟨htag, htr⟩ := htagtr r' rfl
          refine ⟨?_, ?_, ?_, ?_⟩
          · simpa [tags, htag] using List.Sublist.cons₂ r.tag hsub
          · intro e hmem
            rcases List.mem_append.mp hmem with hm | hm
            · obtain ⟨het, hna, htx⟩ := hev1 e hm
              exact ⟨⟨r, List.mem_cons_self .., het⟩, hna, htx⟩
            · obtain ⟨⟨r2, hr2, het⟩, hna, htx⟩ := hev2 e hm
              exact ⟨⟨r2, List.mem_cons_of_mem _ hr2, het⟩, hna, htx⟩
          · intro r2 hr2
            rcases List.mem_cons.mp hr2 with rfl | hm
            · exact ⟨r, List.mem_cons_self .., htr⟩
            · obtain ⟨r3, hr3, htr3⟩ := hsome2 r2 hm
              exact ⟨r3, List.mem_cons_of_mem _ hr3, htr3⟩
          · intro hf
            rw [hctf1 hf, hctf2 hf]
            rfl
        | none =>
          rw [Except.ok.injEq, Prod.mk.injEq] at he
          obtain ⟨h1, h2⟩ := he
          subst h1; subst h2
          refine ⟨List.Sublist.trans hsub (List.sublist_cons_self ..), ?_, ?_, ?_⟩
          · intro e hmem
            rcases List.mem_append.mp hmem with hm | hm
            · obtain ⟨het, hna, htx⟩ := hev1 e hm
              exact ⟨⟨r, List.mem_cons_self .., het⟩, hna, htx⟩
            · obtain ⟨⟨r2, hr2, het⟩, hna, htx⟩ := hev2 e hm
              exact ⟨⟨r2, List.mem_cons_of_mem _ hr2, het⟩, hna, htx⟩
          · intro r2 hr2
            obtain ⟨r3, hr3, htr3⟩ := hsome2 r2 hr2
            exact ⟨r3, List.mem_cons_of_mem _ hr3, htr3⟩
          · intro hf
            rw [hctf1 hf, hctf2 hf]
            rfl

lemma outgoingPass_total {s : Handler} :
    ∀ {l : List TransferProgress}, (∀ r ∈ l, r.tr.isSome = true) →
    ∃ res, outgoingPass s l = .ok res := by
  intro l
  induction l with
  | nil => exact fun _ => ⟨_, rfl⟩
  | cons r rest ih =>
    intro hsome
    obtain ⟨⟨o, evsr⟩, hx⟩ := outExamine_total s (hsome r (List.mem_cons_self ..))
    obtain ⟨⟨lrest, evsrest⟩, hrest⟩ := ih (fun r' h => hsome r' (List.mem_cons_of_mem _ h))
    cases o with
    | some r' =>
      refine ⟨(r' :: lrest, evsr ++ evsrest), ?_⟩
      simp only [outgoingPass, hx, except_bind_ok, hrest]
    | none =>
      refine ⟨(lrest, evsr ++ evsrest), ?_⟩
      simp only [outgoingPass, hx, except_bind_ok, hrest]

lemma outgoingPass_pot {s : Handler} (τ : Nat) :
    ∀ {l l' : List TransferProgress} {evs : List Event},
    (tags l).Nodup → outgoingPass s l = .ok (l', evs) →
    evs.countP (isTxFor τ) + potOf s.mfs s.retransmit_multiplier τ l'
      ≤ potOf s.mfs s.retransmit_multiplier τ l := by
  intro l
  induction l with
  | nil =>
    intro l' evs _ he
    simp only [outgoingPass] at he
    rw [Except.ok.injEq, Prod.mk.injEq] at he
    obtain ⟨h1, h2⟩ := he
    subst h1; subst h2
    simp
  | cons r rest ih =>
    intro l' evs hnd he
    have hnd' : (tags rest).Nodup ∧ r.tag ∉ tags rest := by
      rw [tags, List.map_cons, List.nodup_cons] at hnd
      exact ⟨hnd.2, hnd.1⟩
    simp only [outgoingPass] at he
    rcases hx : outExamine s r with e | ⟨o, evsr⟩
    · rw [hx, except_bind_error] at he; cases he
    · rw [hx, except_bind_ok] at he
      rcases hrest : outgoingPass s rest with e' | ⟨lrest, evsrest⟩
      · rw [hrest, except_bind_error] at he; cases he
      · rw [hrest, except_bind_ok] at he
        dsimp only at he
        obtain ⟨hsub, hev2, _, _⟩ := outgoingPass_spec hrest
        obtain ⟨hev1, htagtr, _, hcases⟩ := outExamine_spec hx
        have ihrest := ih hnd'.1 hrest
        by_cases hτ : r.tag = τ
        · -- the record with tag τ is at the head; no event of the rest mentions τ
          have hrest0 : evsrest.countP (isTxFor τ) = 0 := by
            rw [List.countP_eq_zero]
            intro e hm hp
            obtain ⟨⟨r2, hr2, het⟩, _, _⟩ := hev2 e hm
            rw [isTxFor_evTag hp] at het
            rw [Option.some_inj] at het
            exact hnd'.2 (hτ ▸ het ▸ List.mem_map.mpr ⟨r2, hr2, rfl⟩)
          have hlrest0 : potOf s.mfs s.retransmit_multiplier τ lrest = 0 := by
            refine potOf_eq_zero (fun hm => hnd'.2 (hτ ▸ ?_))
            exact hsub.subset hm
          rcases hcases with ⟨ho, hevs⟩ | ⟨ho, hevs⟩ | ⟨f, ho, hevs, hb⟩
          · subst ho; subst hevs
            rw [Except.ok.injEq, Prod.mk.injEq] at he
            obtain ⟨h1, h2⟩ := he
            subst h1; subst h2
            rw [potOf_cons_pos hτ]
            simp [hrest0, hlrest0]
          · subst ho; subst hevs
            rw [Except.ok.injEq, Prod.mk.injEq] at he
            obtain ⟨h1, h2⟩ := he
            subst h1; subst h2
            rw [potOf_cons_pos hτ, potOf_cons_pos hτ]
            simp [hrest0, hlrest0]
          · subst ho; subst hevs
            rw [Except.ok.injEq, Prod.mk.injEq] at he
            obtain ⟨h1, h2⟩ := he
            subst h1; subst h2
            rw [potOf_cons_pos hτ, potOf_cons_pos (show (retransmit_done s.now r).tag = τ from hτ)]
            rw [capOf_retransmit_done]
            have h1 : List.countP (isTxFor τ)
                (Event.transmit (some r.tag) f :: evsrest) = 1 := by
              rw [List.countP_cons, hrest0]
              simp [isTxFor, hτ]
            rw [List.singleton_append, h1]
            simp only [retransmit_done]
            omega
        · -- head record unrelated to τ
          have hhead0 : evsr.countP (isTxFor τ) = 0 := by
            rw [List.countP_eq_zero]
            intro e hm hp
            obtain ⟨het, _, _⟩ := hev1 e hm
            rw [isTxFor_evTag hp] at het
            rw [Option.some_inj] at het
            exact hτ het.symm
          rw [potOf_cons_neg hτ]
          cases o with
          | some r' =>
            rw [Except.ok.injEq, Prod.mk.injEq] at he
            obtain ⟨h1, h2⟩ := he
            subst h1; subst h2
            obtain ⟨htag, _⟩ := htagtr r' rfl
            rw [potOf_cons_neg (by rw [htag]; exact hτ)]
            rw [List.countP_append, hhead0]
            omega
          | none =>
            rw [Except.ok.injEq, Prod.mk.injEq] at he
            obtain ⟨h1, h2⟩ := he
            subst h1; subst h2
            rw [List.countP_append, hhead0]
            omega

end sp

namespace sp

/-! ### potOf over appends and recvCtl consequences -/

lemma potOf_append_left {mfs mult τ : Nat} {l1 : List TransferProgress} {r0 : TransferProgress}
    (h : l1.find? (fun r => r.tag == τ) = some r0) (l2 : List TransferProgress) :
    potOf mfs mult τ (l1 ++ l2) = capOf mfs mult r0 - r0.retransmitions := by
  unfold potOf
  rw [List.find?_append, h]
  rfl

lemma potOf_append_right {mfs mult τ : Nat} {l1 : List TransferProgress}
    (h : l1.find? (fun r => r.tag == τ) = none) (l2 : List TransferProgress) :
    potOf mfs mult τ (l1 ++ l2) = potOf mfs mult τ l2 := by
  unfold potOf
  rw [List.find?_append, h]
  simp

lemma nodup_middle_facts {l1 l2 : List TransferProgress} {r : TransferProgress}
    (hnd : (tags (l1 ++ r :: l2)).Nodup) :
    r.tag ∉ tags l1 ∧ r.tag ∉ tags l2 := by
  rw [tags, List.map_append, List.map_cons] at hnd
  rw [List.nodup_append] at hnd
  obtain ⟨h1, h2, hdisj⟩ := hnd
  constructor
  · intro hmem
    exact hdisj hmem (List.mem_cons_self ..)
  · exact (List.nodup_cons.mp h2).1

lemma tags_append_middle (l1 l2 : List TransferProgress) (r : TransferProgress) :
    tags (l1 ++ r :: l2) = tags l1 ++ r.tag :: tags l2 := by
  simp [tags]

lemma recvCtl_facts {s : Handler} {h : Header} {p : Fragment}
    {l l' : List TransferProgress} {evs : List Event}
    (hnd : (tags l).Nodup) (hok : recvCtl s h p l = .ok (l', evs)) :
    List.Sublist (tags l') (tags l)
    ∧ (∀ e ∈ evs, ∃ r ∈ l, evTag e = some r.tag)
    ∧ ((∀ r ∈ l, r.tr.isSome = true) → ∀ r' ∈ l', r'.tr.isSome = true)
    ∧ (∀ τ, evs.countP (isAckFor τ) ≤ 1
        ∧ (evs.countP (isAckFor τ) = 1 → τ ∈ tags l ∧ τ ∉ tags l'))
    ∧ (∀ τ, potOf s.mfs s.retransmit_multiplier τ l'
        ≤ potOf s.mfs s.retransmit_multiplier τ l)
    ∧ (s.can_transmit = false → evs.countP isTx = 0) := by
  rcases recvCtl_ok hok with hsame | hretr | hack
  · rw [Prod.mk.injEq] at hsame
    obtain ⟨h1, h2⟩ := hsame
    subst h1; subst h2
    exact ⟨List.Sublist.refl _, (by intro e hc; cases hc), fun hs => hs,
      (by intro τ; exact ⟨by simp, by simp⟩),
      fun τ => Nat.le_refl _, fun _ => rfl⟩
  · obtain ⟨l1, r, tr, l2, f, hleq, htr, hct, hres⟩ := hretr
    rw [Prod.mk.injEq] at hres
    obtain ⟨h1, h2⟩ := hres
    subst hleq; subst h1; subst h2
    refine ⟨?_, ?_, ?_, ?_, ?_, ?_⟩
    · rw [tags_append_middle, tags_append_middle]
      exact List.Sublist.refl _
    · intro e he
      rcases List.mem_singleton.mp he with rfl
      exact ⟨r, by simp, rfl⟩
    · intro hs r' hr'
      rcases List.mem_append.mp hr' with hm | hm
      · exact hs r' (List.mem_append.mpr (Or.inl hm))
      · rcases List.mem_cons.mp hm with rfl | hm'
        · show (retransmit_done s.now r).tr.isSome = true
          have := hs r (by simp)
          simpa [retransmit_done] using this
        · exact hs r' (by simp [hm'])
    · intro τ
      constructor
      · simp [isAckFor]
      · intro hc
        simp [isAckFor] at hc
    · intro τ
      rcases hf : l1.find? (fun r => r.tag == τ) with _ | r0
      · rw [potOf_append_right hf, potOf_append_right hf]
        by_cases hτ : r.tag = τ
        · rw [potOf_cons_pos hτ, potOf_cons_pos (show (retransmit_done s.now r).tag = τ from hτ)]
          rw [capOf_retransmit_done]
          simp only [retransmit_done]
          omega
        · rw [potOf_cons_neg hτ, potOf_cons_neg (show ¬(retransmit_done s.now r).tag = τ from hτ)]
      · rw [potOf_append_left hf, potOf_append_left hf]
    · intro hcf
      rw [hct] at hcf; cases hcf
  · obtain ⟨l1, r, tr, l2, hleq, htr, hres⟩ := hack
    rw [Prod.mk.injEq] at hres
    obtain ⟨h1, h2⟩ := hres
    subst hleq; subst h1; subst h2
    obtain ⟨hnl1, hnl2⟩ := nodup_middle_facts hnd
    refine ⟨?_, ?_, ?_, ?_, ?_, ?_⟩
    · rw [tags_append_middle, tags, List.map_append]
      exact List.Sublist.append_left (List.sublist_cons_self ..) _
    · intro e he
      rcases List.mem_singleton.mp he with rfl
      exact ⟨r, by simp, rfl⟩
    · intro hs r' hr'
      rcases List.mem_append.mp hr' with hm | hm
      · exact hs r' (List.mem_append.mpr (Or.inl hm))
      · exact hs r' (by simp [hm])
    · intro τ
      constructor
      · simp [List.countP_singleton]
        split <;> simp
      · intro hc
        rw [List.countP_singleton] at hc
        split at hc
        · rename_i hpos
          simp only [isAckFor, beq_iff_eq] at hpos
          subst hpos
          refine ⟨by rw [tags_append_middle]; simp, ?_⟩
          rw [tags, List.map_append]
          intro hmem
          rcases List.mem_append.mp hmem with hm | hm
          · exact hnl1 hm
          · exact hnl2 hm
        · cases hc
    · intro τ
      rcases hf : l1.find? (fun r => r.tag == τ) with _ | r0
      · rw [potOf_append_right hf, potOf_append_right hf]
        by_cases hτ : r.tag = τ
        · rw [potOf_cons_pos hτ]
          rw [potOf_eq_zero (hτ ▸ hnl2)]
          exact Nat.zero_le _
        · rw [potOf_cons_neg hτ]
      · rw [potOf_append_left hf, potOf_append_left hf]
    · intro _
      simp [isTx]

end sp

namespace sp

/-! ### Step-level lemmas -/

lemma countP_ack_zero {evs : List Event}
    (hno : ∀ e ∈ evs, ∀ τ', isAckFor τ' e = false) (τ : Nat) :
    evs.countP (isAckFor τ) = 0 :=
  List.countP_eq_zero.mpr (fun e he => by simp [hno e he τ])

lemma nodup_of_append_right {A B : List Nat} (h : (A ++ B).Nodup) : B.Nodup :=
  (List.nodup_append.mp h).2.1

lemma mem_right_not_left {A B : List Nat} (h : (A ++ B).Nodup) {x : Nat} (hx : x ∈ B) :
    x ∉ A :=
  fun hxa => (List.nodup_append.mp h).2.2 hxa hx

lemma nodup_insert_mid {A B : List Nat} {x : Nat} (hnd : (A ++ B).Nodup)
    (hb : ∀ τ ∈ A ++ B, τ < x) : ((A ++ [x]) ++ B).Nodup := by
  have hperm : List.Perm ((A ++ [x]) ++ B) (x :: (A ++ B)) := by
    rw [List.append_assoc]
    exact List.perm_middle
  refine (List.Perm.nodup_iff hperm).mpr ?_
  rw [List.nodup_cons]
  exact ⟨fun hm => absurd (hb x hm) (lt_irrefl x), hnd⟩

lemma nodup_insert_end {A B : List Nat} {x : Nat} (hnd : (A ++ B).Nodup)
    (hb : ∀ τ ∈ A ++ B, τ < x) : (A ++ (B ++ [x])).Nodup := by
  have hperm : List.Perm (A ++ (B ++ [x])) (x :: (A ++ B)) := by
    rw [← List.append_assoc]
    have h2 : List.Perm ((A ++ B) ++ [x]) (x :: ((A ++ B) ++ [])) :=
      @List.perm_middle Nat x (A ++ B) []
    simpa using h2
  refine (List.Perm.nodup_iff hperm).mpr ?_
  rw [List.nodup_cons]
  exact ⟨fun hm => absurd (hb x hm) (lt_irrefl x), hnd⟩

lemma stepFacts_of_same {s s' : Handler} (op : Op)
    (hin : s'.incoming = s.incoming) (hout : s'.outgoing = s.outgoing)
    (hnt : s'.nextTag = s.nextTag) (hm : s'.mfs = s.mfs)
    (hmu : s'.retransmit_multiplier = s.retransmit_multiplier)
    (hInv : Inv s) : StepFacts s s' op [] := by
  obtain ⟨hnd, hbound, hsome⟩ := hInv
  refine ⟨⟨?_, ?_, ?_⟩, ?_, hm, hmu, ?_, ?_, ?_⟩
  · rw [hin, hout]; exact hnd
  · rw [hin, hout, hnt]; exact hbound
  · rw [hout]; exact hsome
  · rw [hnt]
  · intro τ _ hτ
    refine ⟨(by intro e he; cases he), ?_⟩
    rw [hin, hout]; exact hτ
  · intro τ
    exact ⟨by simp, by simp⟩
  · intro τ _ hτin
    rw [hin, hout]
    exact ⟨hτin, Nat.le_refl _, fun _ => by simp⟩

end sp

namespace sp

lemma handle_fragment_facts {s : Handler} {h : Header} {p : Fragment}
    {s' : Handler} {evs : List Event} (q : Fragment) (hInv : Inv s)
    (hstep : handle_fragment s h p = .ok (s', evs)) :
    StepFacts s s' (.recv q) evs := by
  obtain ⟨hnd, hbound, hsome⟩ := hInv
  unfold handle_fragment at hstep
  split at hstep
  · -- FRAGMENT branch
    split at hstep
    · -- a record matched
      rename_i inc evs0 hf
      rw [Except.ok.injEq, Prod.mk.injEq] at hstep
      obtain ⟨h1, h2⟩ := hstep
      subst h1; subst h2
      obtain ⟨htags, hev, hctf⟩ := recvFragIn_ok hf
      refine ⟨⟨?_, ?_, hsome⟩, Nat.le_refl _, rfl, rfl, ?_, ?_, ?_⟩
      · show (tags inc ++ tags s.outgoing).Nodup
        rw [htags]; exact hnd
      · show ∀ τ ∈ tags inc ++ tags s.outgoing, τ < s.nextTag
        rw [htags]; exact hbound
      · intro τ _ hτ
        constructor
        · intro e he hc
          obtain ⟨⟨r, hr, het⟩, _⟩ := hev e he
          rw [hc] at het
          rw [Option.some_inj] at het
          subst het
          exact hτ (List.mem_append.mpr (Or.inl (List.mem_map.mpr ⟨r, hr, rfl⟩)))
        · show τ ∉ tags inc ++ tags s.outgoing
          rw [htags]; exact hτ
      · intro τ
        have hz : evs0.countP (isAckFor τ) = 0 :=
          countP_ack_zero (fun e he τ' => (hev e he).2 τ') τ
        rw [hz]
        exact ⟨Nat.zero_le _, by intro hc; cases hc⟩
      · intro τ hlt hτin
        refine ⟨?_, Nat.le_refl _, by intro hc; cases hc⟩
        show τ ∉ tags inc
        rw [htags]; exact hτin
    · -- no match: a fresh reassembly record is appended
      rename_i hf
      rw [Except.ok.injEq, Prod.mk.injEq] at hstep
      obtain ⟨h1, h2⟩ := hstep
      subst h1; subst h2
      have htagsin : tags (s.incoming ++
          [{ tr := some ((newReassembly p.addr h s.now).assign h.fragment p.data s.now),
             timestamp_accessed := s.now, retransmitions := 0,
             id := ((newReassembly p.addr h s.now).assign h.fragment p.data s.now).id,
             tag := s.nextTag }]) = tags s.incoming ++ [s.nextTag] := by
        simp [tags]
      refine ⟨⟨?_, ?_, hsome⟩, Nat.le_succ _, rfl, rfl, ?_, ?_, ?_⟩
      · show (tags (s.incoming ++ _) ++ tags s.outgoing).Nodup
        rw [htagsin]
        exact nodup_insert_mid hnd hbound
      · show ∀ τ ∈ tags (s.incoming ++ _) ++ tags s.outgoing, τ < s.nextTag + 1
        rw [htagsin]
        intro τ hτ
        rcases List.mem_append.mp hτ with hm | hm
        · rcases List.mem_append.mp hm with hm' | hm'
          · exact Nat.lt_succ_of_lt (hbound τ (List.mem_append.mpr (Or.inl hm')))
          · rcases List.mem_singleton.mp hm' with rfl
            exact Nat.lt_succ_self _
        · exact Nat.lt_succ_of_lt (hbound τ (List.mem_append.mpr (Or.inr hm)))
      · intro τ hlt hτ
        refine ⟨(by intro e he; cases he), ?_⟩
        show τ ∉ tags (s.incoming ++ _) ++ tags s.outgoing
        rw [htagsin]
        intro hmem
        rcases List.mem_append.mp hmem with hm | hm
        · rcases List.mem_append.mp hm with hm' | hm'
          · exact hτ (List.mem_append.mpr (Or.inl hm'))
          · rcases List.mem_singleton.mp hm' with rfl
            exact absurd hlt (lt_irrefl _)
        · exact hτ (List.mem_append.mpr (Or.inr hm))
      · intro τ
        exact ⟨by simp, by simp⟩
      · intro τ hlt hτin
        refine ⟨?_, Nat.le_refl _, by intro hc; cases hc⟩
        show τ ∉ tags (s.incoming ++ _)
        rw [htagsin]
        intro hmem
        rcases List.mem_append.mp hmem with hm | hm
        · exact hτin hm
        · rcases List.mem_singleton.mp hm with rfl
          exact absurd hlt (lt_irrefl _)
  · -- REQ/ACK branch
    rcases hctl : recvCtl s h p s.outgoing with e | res
    · rw [hctl, except_bind_error] at hstep; cases hstep
    · obtain ⟨outs, evs0⟩ := res
      rw [hctl, except_bind_ok, Except.ok.injEq, Prod.mk.injEq] at hstep
      obtain ⟨h1, h2⟩ := hstep
      subst h1; subst h2
      obtain ⟨hsub, hev, hsm, hackf, hpot, _⟩ :=
        recvCtl_facts (nodup_of_append_right hnd) hctl
      refine ⟨⟨?_, ?_, ?_⟩, Nat.le_refl _, rfl, rfl, ?_, ?_, ?_⟩
      · show (tags s.incoming ++ tags outs).Nodup
        exact List.Nodup.sublist (List.Sublist.append_left hsub _) hnd
      · show ∀ τ ∈ tags s.incoming ++ tags outs, τ < s.nextTag
        intro τ hτ
        rcases List.mem_append.mp hτ with hm | hm
        · exact hbound τ (List.mem_append.mpr (Or.inl hm))
        · exact hbound τ (List.mem_append.mpr (Or.inr (hsub.subset hm)))
      · exact hsm hsome
      · intro τ hlt hτ
        constructor
        · intro e he hc
          obtain ⟨r, hr, het⟩ := hev e he
          rw [hc] at het
          rw [Option.some_inj] at het
          subst het
          exact hτ (List.mem_append.mpr (Or.inr (List.mem_map.mpr ⟨r, hr, rfl⟩)))
        · show τ ∉ tags s.incoming ++ tags outs
          intro hmem
          rcases List.mem_append.mp hmem with hm | hm
          · exact hτ (List.mem_append.mpr (Or.inl hm))
          · exact hτ (List.mem_append.mpr (Or.inr (hsub.subset hm)))
      · intro τ
        obtain ⟨hle, hone⟩ := hackf τ
        refine ⟨hle, ?_⟩
        intro hc
        obtain ⟨hin, hnotin⟩ := hone hc
        refine ⟨hin, ?_⟩
        show τ ∉ tags s.incoming ++ tags outs
        intro hmem
        rcases List.mem_append.mp hmem with hm | hm
        · exact mem_right_not_left hnd hin hm
        · exact hnotin hm
      · intro τ hlt hτin
        exact ⟨hτin, hpot τ, by intro hc; cases hc⟩

end sp

namespace sp

lemma potOf_append_singleton {mfs mult τ : Nat} {l : List TransferProgress}
    {r : TransferProgress} (h : ¬r.tag = τ) :
    potOf mfs mult τ (l ++ [r]) = potOf mfs mult τ l := by
  rcases hf : l.find? (fun r => r.tag == τ) with _ | r0
  · rw [potOf_append_right hf, potOf_cons_neg h]
    simp [potOf, hf]
  · rw [potOf_append_left hf]
    simp [potOf, hf]

lemma transmit_facts {s : Handler} {t : Transfer} {s' : Handler} {evs : List Event}
    (hInv : Inv s) (hstep : s.transmit t = .ok (s', evs)) :
    StepFacts s s' (.xmit t) evs := by
  obtain ⟨hnd, hbound, hsome⟩ := hInv
  unfold Handler.transmit at hstep
  dsimp only at hstep
  rcases hb : emitBurst s t s.nextTag (Transfer.fragments_count s.mfs t) 1 with e | evs0
  · rw [hb, except_bind_error] at hstep; cases hstep
  · rw [hb, except_bind_ok, Except.ok.injEq, Prod.mk.injEq] at hstep
    obtain ⟨h1, h2⟩ := hstep
    subst h1; subst h2
    obtain ⟨hlen, hall⟩ := emitBurst_ok hb
    have htagsout : tags (s.outgoing ++
        [{ tr := some t, timestamp_accessed := s.now, retransmitions := 0,
           id := t.id, tag := s.nextTag }]) = tags s.outgoing ++ [s.nextTag] := by
      simp [tags]
    refine ⟨⟨?_, ?_, ?_⟩, Nat.le_succ _, rfl, rfl, ?_, ?_, ?_⟩
    · show (tags s.incoming ++ tags (s.outgoing ++ _)).Nodup
      rw [htagsout]
      exact nodup_insert_end hnd hbound
    · show ∀ τ ∈ tags s.incoming ++ tags (s.outgoing ++ _), τ < s.nextTag + 1
      rw [htagsout]
      intro τ hτ
      rcases List.mem_append.mp hτ with hm | hm
      · exact Nat.lt_succ_of_lt (hbound τ (List.mem_append.mpr (Or.inl hm)))
      · rcases List.mem_append.mp hm with hm' | hm'
        · exact Nat.lt_succ_of_lt (hbound τ (List.mem_append.mpr (Or.inr hm')))
        · rcases List.mem_singleton.mp hm' with rfl
          exact Nat.lt_succ_self _
    · intro r hr
      rcases List.mem_append.mp hr with hm | hm
      · exact hsome r hm
      · rcases List.mem_singleton.mp hm with rfl
        rfl
    · intro τ hlt hτ
      constructor
      · intro e he hc
        obtain ⟨f, rfl⟩ := hall e he
        rw [show evTag (Event.transmit (some s.nextTag) f) = some s.nextTag from rfl,
          Option.some_inj] at hc
        rw [hc] at hlt
        exact absurd hlt (lt_irrefl _)
      · show τ ∉ tags s.incoming ++ tags (s.outgoing ++ _)
        rw [htagsout]
        intro hmem
        rcases List.mem_append.mp hmem with hm | hm
        · exact hτ (List.mem_append.mpr (Or.inl hm))
        · rcases List.mem_append.mp hm with hm' | hm'
          · exact hτ (List.mem_append.mpr (Or.inr hm'))
          · rcases List.mem_singleton.mp hm' with rfl
            exact absurd hlt (lt_irrefl _)
    · intro τ
      have hz : evs0.countP (isAckFor τ) = 0 := by
        rw [List.countP_eq_zero]
        intro e he hc
        obtain ⟨f, rfl⟩ := hall e he
        cases hc
      rw [hz]
      exact ⟨Nat.zero_le _, by intro hc; cases hc⟩
    · intro τ hlt hτin
      refine ⟨hτin, ?_, by intro hc; cases hc⟩
      show potOf s.mfs s.retransmit_multiplier τ (s.outgoing ++ _)
        ≤ potOf s.mfs s.retransmit_multiplier τ s.outgoing
      rw [potOf_append_singleton (show ¬(s.nextTag : Nat) = τ from fun hc => absurd (hc ▸ hlt) (lt_irrefl _))]

lemma main_task_facts {s : Handler} {s' : Handler} {evs : List Event}
    (hInv : Inv s) (hstep : s.main_task = .ok (s', evs)) :
    StepFacts s s' .tick evs := by
  obtain ⟨hnd, hbound, hsome⟩ := hInv
  unfold Handler.main_task at hstep
  rcases hip : incomingPass s s.incoming with ⟨inc, evsI⟩
  rw [hip] at hstep
  dsimp only at hstep
  rcases hop : outgoingPass s s.outgoing with e | res
  · rw [hop, except_bind_error] at hstep; cases hstep
  · obtain ⟨outg, evsO⟩ := res
    rw [hop, except_bind_ok] at hstep
    dsimp only at hstep
    rw [Except.ok.injEq, Prod.mk.injEq] at hstep
    obtain ⟨h1, h2⟩ := hstep
    subst h1; subst h2
    obtain ⟨hsubI, hevI, hctfI⟩ := incomingPass_spec s s.incoming.length s.incoming (Nat.le_refl _)
    rw [hip] at hsubI hevI hctfI
    obtain ⟨hsubO, hevO, hsomeO, hctfO⟩ := outgoingPass_spec hop
    have hpotO := fun τ => outgoingPass_pot τ (nodup_of_append_right hnd) hop
    refine ⟨⟨?_, ?_, ?_⟩, Nat.le_refl _, rfl, rfl, ?_, ?_, ?_⟩
    · show (tags inc ++ tags outg).Nodup
      exact List.Nodup.sublist (List.Sublist.append hsubI hsubO) hnd
    · show ∀ τ ∈ tags inc ++ tags outg, τ < s.nextTag
      intro τ hτ
      rcases List.mem_append.mp hτ with hm | hm
      · exact hbound τ (List.mem_append.mpr (Or.inl (hsubI.subset hm)))
      · exact hbound τ (List.mem_append.mpr (Or.inr (hsubO.subset hm)))
    · intro r hr
      obtain ⟨r2, hr2, htr⟩ := hsomeO r hr
      rw [htr]
      exact hsome r2 hr2
    · intro τ hlt hτ
      constructor
      · intro e he hc
        rcases List.mem_append.mp he with hm | hm
        · obtain ⟨⟨r, hr, het⟩, _⟩ := hevI e hm
          rw [hc] at het
          rw [Option.some_inj] at het
          subst het
          exact hτ (List.mem_append.mpr (Or.inl (List.mem_map.mpr ⟨r, hr, rfl⟩)))
        · obtain ⟨⟨r, hr, het⟩, _, _⟩ := hevO e hm
          rw [hc] at het
          rw [Option.some_inj] at het
          subst het
          exact hτ (List.mem_append.mpr (Or.inr (List.mem_map.mpr ⟨r, hr, rfl⟩)))
      · show τ ∉ tags inc ++ tags outg
        intro hmem
        rcases List.mem_append.mp hmem with hm | hm
        · exact hτ (List.mem_append.mpr (Or.inl (hsubI.subset hm)))
        · exact hτ (List.mem_append.mpr (Or.inr (hsubO.subset hm)))
    · intro τ
      have hz : (evsI ++ evsO).countP (isAckFor τ) = 0 := by
        rw [List.countP_append]
        rw [countP_ack_zero (fun e he τ' => (hevI e he).2 τ') τ]
        rw [countP_ack_zero (fun e he τ' => (hevO e he).2.1 τ') τ]
      rw [hz]
      exact ⟨Nat.zero_le _, by intro hc; cases hc⟩
    · intro τ hlt hτin
      have hzI : evsI.countP (isTxFor τ) = 0 := by
        rw [List.countP_eq_zero]
        intro e he hc
        obtain ⟨⟨r, hr, het⟩, _⟩ := hevI e he
        rw [isTxFor_evTag hc] at het
        rw [Option.some_inj] at het
        subst het
        exact hτin (List.mem_map.mpr ⟨r, hr, rfl⟩)
      have hkey : (evsI ++ evsO).countP (isTxFor τ)
          + potOf s.mfs s.retransmit_multiplier τ outg
          ≤ potOf s.mfs s.retransmit_multiplier τ s.outgoing := by
        rw [List.countP_append, hzI, Nat.zero_add]
        exact hpotO τ
      refine ⟨?_, ?_, fun _ => hkey⟩
      · intro hmem
        exact hτin (hsubI.subset hmem)
      · exact Nat.le_trans (Nat.le_add_left _ _) hkey

lemma step_facts {s s' : Handler} {op : Op} {evs : List Event}
    (hInv : Inv s) (hstep : step s op = .ok (s', evs)) :
    StepFacts s s' op evs := by
  cases op with
  | recv p =>
    simp only [step] at hstep
    unfold receive_callback at hstep
    dsimp only at hstep
    split at hstep
    · split at hstep
      · exact handle_fragment_facts p hInv hstep
      · rw [Except.ok.injEq, Prod.mk.injEq] at hstep
        obtain ⟨h1, h2⟩ := hstep
        subst h1; subst h2
        exact stepFacts_of_same _ rfl rfl rfl rfl rfl hInv
    · rw [Except.ok.injEq, Prod.mk.injEq] at hstep
      obtain ⟨h1, h2⟩ := hstep
      subst h1; subst h2
      exact stepFacts_of_same _ rfl rfl rfl rfl rfl hInv
  | xmit t =>
    simp only [step] at hstep
    exact transmit_facts hInv hstep
  | tick =>
    simp only [step] at hstep
    exact main_task_facts hInv hstep
  | status n =>
    simp only [step] at hstep
    rw [Except.ok.injEq, Prod.mk.injEq] at hstep
    obtain ⟨h1, h2⟩ := hstep
    subst h1; subst h2
    exact stepFacts_of_same _ rfl rfl rfl rfl rfl hInv
  | advance d =>
    simp only [step] at hstep
    rw [Except.ok.injEq, Prod.mk.injEq] at hstep
    obtain ⟨h1, h2⟩ := hstep
    subst h1; subst h2
    exact stepFacts_of_same _ rfl rfl rfl rfl rfl hInv

end sp

namespace sp

/-! ### Trace-level lemmas -/

lemma traceEvents_cons (op : Op) (evs : List Event) (tr : List (Op × List Event)) :
    traceEvents ((op, evs) :: tr) = evs ++ traceEvents tr := rfl

lemma tickEvents_cons_tick (evs : List Event) (tr : List (Op × List Event)) :
    tickEvents ((Op.tick, evs) :: tr) = evs ++ tickEvents tr := rfl

lemma tickEvents_cons_ne {op : Op} (h : ¬op = Op.tick) (evs : List Event)
    (tr : List (Op × List Event)) :
    tickEvents ((op, evs) :: tr) = tickEvents tr := by
  cases op with
  | tick => exact absurd rfl h
  | recv p => rfl
  | xmit t => rfl
  | status n => rfl
  | advance d => rfl

lemma runTrace_cons_ok {s s' : Handler} {op : Op} {evs : List Event} {ops : List Op}
    (hst : step s op = .ok (s', evs)) :
    runTrace s (op :: ops) = ((runTrace s' ops).1, (op, evs) :: (runTrace s' ops).2) := by
  simp only [runTrace, hst]

lemma runTrace_cons_error {s : Handler} {op : Op} {e : Err} {ops : List Op}
    (hst : step s op = .error e) :
    runTrace s (op :: ops) = (s, []) := by
  simp only [runTrace, hst]

lemma dead_tag_silent :
    ∀ (ops : List Op) (s : Handler) (τ : Nat), Inv s → τ < s.nextTag →
    τ ∉ tags s.incoming ++ tags s.outgoing →
    ∀ e ∈ traceEvents (runTrace s ops).2, ¬evTag e = some τ := by
  intro ops
  induction ops with
  | nil => intro s τ _ _ _ e he; cases he
  | cons op ops ih =>
    intro s τ hInv hlt hτ e he
    rcases hst : step s op with e' | v
    · rw [runTrace_cons_error hst] at he
      cases he
    · obtain ⟨s', evs⟩ := v
      rw [runTrace_cons_ok hst, traceEvents_cons] at he
      obtain ⟨hInv', hmono, _, _, hdead, _, _⟩ := step_facts hInv hst
      obtain ⟨hnoev, hτ'⟩ := hdead τ hlt hτ
      rcases List.mem_append.mp he with hm | hm
      · exact hnoev e hm
      · exact ih s' τ hInv' (Nat.lt_of_lt_of_le hlt hmono) hτ' e hm

lemma ack_at_most_once :
    ∀ (ops : List Op) (s : Handler) (τ : Nat), Inv s →
    (traceEvents (runTrace s ops).2).countP (isAckFor τ) ≤ 1 := by
  intro ops
  induction ops with
  | nil => intro s τ _; simp [runTrace, traceEvents]
  | cons op ops ih =>
    intro s τ hInv
    rcases hst : step s op with e' | v
    · rw [runTrace_cons_error hst]
      simp [traceEvents]
    · obtain ⟨s', evs⟩ := v
      rw [runTrace_cons_ok hst, traceEvents_cons, List.countP_append]
      obtain ⟨hInv', hmono, _, _, _, hack, _⟩ := step_facts hInv hst
      obtain ⟨hle, hone⟩ := hack τ
      rcases Nat.le_one_iff_eq_zero_or_eq_one.mp hle with h0 | h1
      · rw [h0, Nat.zero_add]
        exact ih s' τ hInv'
      · obtain ⟨hmem, hgone⟩ := hone h1
        have hlt : τ < s.nextTag :=
          hInv.2.1 τ (List.mem_append.mpr (Or.inr hmem))
        have hrest : (traceEvents (runTrace s' ops).2).countP (isAckFor τ) = 0 := by
          rw [List.countP_eq_zero]
          intro e he hc
          exact dead_tag_silent ops s' τ hInv' (Nat.lt_of_lt_of_le hlt hmono) hgone e he
            (isAckFor_evTag hc)
        rw [h1, hrest]

lemma tick_budget :
    ∀ (ops : List Op) (s : Handler) (τ : Nat), Inv s → τ < s.nextTag →
    τ ∉ tags s.incoming →
    (tickEvents (runTrace s ops).2).countP (isTxFor τ)
      ≤ potOf s.mfs s.retransmit_multiplier τ s.outgoing := by
  intro ops
  induction ops with
  | nil => intro s τ _ _ _; simp [runTrace, tickEvents]
  | cons op ops ih =>
    intro s τ hInv hlt hτin
    rcases hst : step s op with e' | v
    · rw [runTrace_cons_error hst]
      simp [tickEvents]
    · obtain ⟨s', evs⟩ := v
      rw [runTrace_cons_ok hst]
      obtain ⟨hInv', hmono, hmfs, hmult, _, _, hpot⟩ := step_facts hInv hst
      obtain ⟨hτin', hple, htick⟩ := hpot τ hlt hτin
      have hrest := ih s' τ hInv' (Nat.lt_of_lt_of_le hlt hmono) hτin'
      rw [hmfs, hmult] at hrest
      by_cases hop : op = Op.tick
      · subst hop
        rw [tickEvents_cons_tick, List.countP_append]
        have hb := htick rfl
        omega
      · rw [tickEvents_cons_ne hop]
        omega

end sp

namespace sp

/-! ### Remaining helper lemmas -/

lemma recvCtl_ct_false {s : Handler} {h : Header} {p : Fragment}
    {l l' : List TransferProgress} {evs : List Event}
    (hct : s.can_transmit = false) (hok : recvCtl s h p l = .ok (l', evs)) :
    evs.countP isTx = 0 := by
  rcases recvCtl_ok hok with hsame | hretr | hack
  · rw [Prod.mk.injEq] at hsame
    rw [hsame.2]
    rfl
  · obtain ⟨_, _, _, _, _, _, _, hc, _⟩ := hretr
    rw [hct] at hc; cases hc
  · obtain ⟨l1, r, tr, l2, _, _, hres⟩ := hack
    rw [Prod.mk.injEq] at hres
    rw [hres.2]
    rfl

lemma reachable_inv {s : Handler} (hr : Reachable s) : Inv s := by
  induction hr with
  | init mfs rt dt mult =>
    refine ⟨?_, ?_, ?_⟩
    · simp [mkHandler, tags]
    · simp [mkHandler, tags]
    · intro r hr
      simp [mkHandler] at hr
  | step hr hst ih =>
    exact (step_facts ih hst).1

lemma recvFragIn_grace {s : Handler} {h : Header} {p : Fragment}
    (hct : s.can_transmit = true) :
    ∀ (l1 : List TransferProgress) {r : TransferProgress} {l2 : List TransferProgress},
    (∀ r' ∈ l1, incomingMatches h p r' = false) →
    r.tr = none → r.id = h.id →
    recvFragIn s h p (l1 ++ r :: l2) = some (l1 ++ r :: l2,
      [.transmit (some r.tag)
        ⟨p.addr, Header.to_bytes ⟨FRAGMENT_ACK, h.fragment, h.fragments_total, h.id, h.prev_id⟩⟩]) := by
  intro l1
  induction l1 with
  | nil =>
    intro r l2 _ hgrace hid
    have hm : incomingMatches h p r = true := by
      rw [incomingMatches, hgrace]
      simp [hid]
    rw [List.nil_append]
    simp only [recvFragIn, hm, if_true, hgrace, hct, if_true]
  | cons r1 l1' ih =>
    intro r l2 hpre hgrace hid
    have hm1 : incomingMatches h p r1 = false := hpre r1 (List.mem_cons_self ..)
    have hrec := @ih r l2 (fun r' hr' => hpre r' (List.mem_cons_of_mem _ hr')) hgrace hid
    rw [List.cons_append]
    simp only [recvFragIn, hm1, Bool.false_eq_true, if_false, hrec]

lemma recvCtl_first_ack {s : Handler} {h : Header} {p : Fragment}
    (hty : h.typeCode = FRAGMENT_ACK) :
    ∀ (l1 : List TransferProgress) {r : TransferProgress} {tr : Transfer}
      {l2 : List TransferProgress},
    (∀ r' ∈ l1, ∃ tr', r'.tr = some tr'
        ∧ (tr'.id == h.id && tr'.matchAsResponse p) = false) →
    r.tr = some tr → (tr.id == h.id && tr.matchAsResponse p) = true →
    recvCtl s h p (l1 ++ r :: l2)
      = .ok (l1 ++ l2, [.acked r.tag tr.id tr.source tr.destination]) := by
  intro l1
  induction l1 with
  | nil =>
    intro r tr l2 _ htr hm
    rw [List.nil_append]
    simp only [recvCtl, htr, hm, if_true]
    have hreq : (h.typeCode == FRAGMENT_REQ && s.can_transmit) = false := by
      rw [hty]
      rfl
    have hackty : (h.typeCode == FRAGMENT_ACK) = true := by
      rw [hty]
      rfl
    simp only [hreq, Bool.false_eq_true, if_false, hackty, if_true]
    rfl
  | cons r1 l1' ih =>
    intro r tr l2 hpre htr hm
    obtain ⟨tr1, htr1, hm1⟩ := hpre r1 (List.mem_cons_self ..)
    have hrec := @ih r tr l2 (fun r' hr' => hpre r' (List.mem_cons_of_mem _ hr')) htr hm
    rw [List.cons_append]
    simp only [recvCtl, htr1, hm1, Bool.false_eq_true, if_false, hrec, except_bind_ok]
    rfl

end sp

namespace sp

lemma handle_fragment_ct_false {s : Handler} {h : Header} {p : Fragment}
    {s' : Handler} {evs : List Event} (hct : s.can_transmit = false)
    (hstep : handle_fragment s h p = .ok (s', evs)) : evs.countP isTx = 0 := by
  unfold handle_fragment at hstep
  split at hstep
  · split at hstep
    · rename_i inc evs0 hf
      rw [Except.ok.injEq, Prod.mk.injEq] at hstep
      obtain ⟨h1, h2⟩ := hstep
      subst h1; subst h2
      have h0 : evs0 = [] := (recvFragIn_ok hf).2.2 hct
      rw [h0]
      rfl
    · rw [Except.ok.injEq, Prod.mk.injEq] at hstep
      obtain ⟨h1, h2⟩ := hstep
      subst h1; subst h2
      rfl
  · rcases hctl : recvCtl s h p s.outgoing with e | res
    · rw [hctl, except_bind_error] at hstep; cases hstep
    · obtain ⟨outs, evs0⟩ := res
      rw [hctl, except_bind_ok, Except.ok.injEq, Prod.mk.injEq] at hstep
      obtain ⟨h1, h2⟩ := hstep
      subst h1; subst h2
      exact recvCtl_ct_false hct hctl

/-- Claim C4: `can_transmit()` holds exactly when the last observed interface
status reports a nonzero number of transmit slots, and with zero slots no
invocation of any entry point (receive_callback, transmit, main_task, or the
callbacks) emits a `transmit_event`; the pending work is simply left in the
tables for later `main_task` passes. -/
theorem C4_backpressure_obeyed (s : Handler) :
    (s.can_transmit = true ↔ s.availableTransmitSlots ≠ 0)
    ∧ (s.availableTransmitSlots = 0 →
        ∀ op s' evs, step s op = .ok (s', evs) → evs.countP isTx = 0) := by
  constructor
  · unfold Handler.can_transmit
    simp
  · intro hz op s' evs hstep
    have hct : s.can_transmit = false := by
      simp [Handler.can_transmit, hz]
    cases op with
    | recv p =>
      simp only [step] at hstep
      unfold receive_callback at hstep
      dsimp only at hstep
      split at hstep
      · split at hstep
        · exact handle_fragment_ct_false hct hstep
        · rw [Except.ok.injEq, Prod.mk.injEq] at hstep
          obtain ⟨h1, h2⟩ := hstep
          subst h1; subst h2
          rfl
      · rw [Except.ok.injEq, Prod.mk.injEq] at hstep
        obtain ⟨h1, h2⟩ := hstep
        subst h1; subst h2
        rfl
    | xmit t =>
      simp only [step] at hstep
      unfold Handler.transmit at hstep
      dsimp only at hstep
      rcases hb : emitBurst s t s.nextTag (Transfer.fragments_count s.mfs t) 1 with e | evs0
      · rw [hb, except_bind_error] at hstep; cases hstep
      · rw [hb, except_bind_ok, Except.ok.injEq, Prod.mk.injEq] at hstep
        obtain ⟨h1, h2⟩ := hstep
        subst h1; subst h2
        rw [emitBurst_ct_false hct hb]
        rfl
    | tick =>
      simp only [step] at hstep
      unfold Handler.main_task at hstep
      rcases hip : incomingPass s s.incoming with ⟨inc, evsI⟩
      rw [hip] at hstep
      dsimp only at hstep
      rcases hop : outgoingPass s s.outgoing with e | res
      · rw [hop, except_bind_error] at hstep; cases hstep
      · obtain ⟨outg, evsO⟩ := res
        rw [hop, except_bind_ok] at hstep
        dsimp only at hstep
        rw [Except.ok.injEq, Prod.mk.injEq] at hstep
        obtain ⟨h1, h2⟩ := hstep
        subst h1; subst h2
        have hI : evsI = [] := by
          have hh := (incomingPass_spec s s.incoming.length s.incoming (Nat.le_refl _)).2.2 hct
          rw [hip] at hh
          exact hh
        have hO : evsO = [] := (outgoingPass_spec hop).2.2.2 hct
        rw [hI, hO]
        rfl
    | status n =>
      simp only [step] at hstep
      rw [Except.ok.injEq, Prod.mk.injEq] at hstep
      obtain ⟨h1, h2⟩ := hstep
      subst h1; subst h2
      rfl
    | advance d =>
      simp only [step] at hstep
      rw [Except.ok.injEq, Prod.mk.injEq] at hstep
      obtain ⟨h1, h2⟩ := hstep
      subst h1; subst h2
      rfl

/-- Witness for C4 at a concrete zero-slot handler and a concrete transmit
call. -/
theorem C4_backpressure_obeyed_witness :
    (mkHandler 4 100 1000 2).availableTransmitSlots = 0
    ∧ ([] : List Event).countP isTx = 0 :=
  ⟨rfl, (C4_backpressure_obeyed (mkHandler 4 100 1000 2)).2 rfl (Op.xmit exT2)
    ⟨[], [⟨some exT2, 0, 0, 7, 0⟩], 0, 100, 1000, 2, 4, 0, 1⟩ []
    rfl⟩

end sp

namespace sp

/-- Claim C6: across any sequence of entry-point invocations from a state
satisfying the handler invariant, `transfer_ack_event` fires at most once per
outgoing transfer (identified by its ghost tag); moreover the first
FRAGMENT_ACK whose header id equals the record's transfer id and for which
`match_as_response` holds makes the lookup emit the ack event and erase that
record within the same invocation. -/
theorem C6_ack_fires_at_most_once (s : Handler) (ops : List Op) (τ : Nat)
    (hInv : Inv s) :
    (traceEvents (runTrace s ops).2).countP (isAckFor τ) ≤ 1
    ∧ (∀ (h : Header) (p : Fragment) (l1 : List TransferProgress)
        (r : TransferProgress) (tr : Transfer) (l2 : List TransferProgress),
        h.typeCode = FRAGMENT_ACK →
        s.outgoing = l1 ++ r :: l2 →
        (∀ r' ∈ l1, ∃ tr', r'.tr = some tr'
            ∧ (tr'.id == h.id && tr'.matchAsResponse p) = false) →
        r.tr = some tr → (tr.id == h.id && tr.matchAsResponse p) = true →
        recvCtl s h p s.outgoing
          = .ok (l1 ++ l2, [.acked r.tag tr.id tr.source tr.destination])) := by
  constructor
  · exact ack_at_most_once ops s τ hInv
  · intro h p l1 r tr l2 hty hout hpre htr hm
    rw [hout]
    exact recvCtl_first_ack hty l1 hpre htr hm

/-- Witness for C6: the concrete single-record handler `exS1`, a run that
feeds it one FRAGMENT_ACK, and the concrete lookup. -/
theorem C6_ack_fires_at_most_once_witness :
    Inv exS1
    ∧ (traceEvents (runTrace exS1 [Op.recv ⟨2, Header.to_bytes ⟨2, 1, 1, 7, 6⟩⟩]).2).countP
        (isAckFor 0) ≤ 1 :=
  ⟨by decide,
   (C6_ack_fires_at_most_once exS1 [Op.recv ⟨2, Header.to_bytes ⟨2, 1, 1, 7, 6⟩⟩] 0
     (by decide)).1⟩

/-- Claim C2 amended: the initial `transmit()` burst emits at most N
FRAGMENTs, and the `main_task` retransmissions attributable to the transfer
are capped by the budget `N * retransmit_multiplier` over the whole remaining
lifetime; only FRAGMENT_REQ-driven retransmissions escape the budget (they
are the subject of the counterexample). -/
theorem C2_amended_burst_and_tick_budget {s : Handler} {t : Transfer}
    {s' : Handler} {evs0 : List Event} (hInv : Inv s)
    (hx : s.transmit t = .ok (s', evs0)) (ops : List Op) :
    evs0.countP (isFragTxFor s.nextTag) ≤ Transfer.fragments_count s.mfs t
    ∧ (tickEvents (runTrace s' ops).2).countP (isFragTxFor s.nextTag)
        ≤ Transfer.fragments_count s.mfs t * s.retransmit_multiplier := by
  obtain ⟨hnd, hbound, hsome⟩ := hInv
  have hfacts := transmit_facts ⟨hnd, hbound, hsome⟩ hx
  unfold Handler.transmit at hx
  dsimp only at hx
  rcases hb : emitBurst s t s.nextTag (Transfer.fragments_count s.mfs t) 1 with e | evsb
  · rw [hb, except_bind_error] at hx; cases hx
  · rw [hb, except_bind_ok, Except.ok.injEq, Prod.mk.injEq] at hx
    obtain ⟨h1, h2⟩ := hx
    subst h1; subst h2
    obtain ⟨hlen, hall⟩ := emitBurst_ok hb
    constructor
    · calc evsb.countP (isFragTxFor s.nextTag)
          ≤ evsb.length := List.countP_le_length _
      _ ≤ Transfer.fragments_count s.mfs t := hlen
    · obtain ⟨hInv', _, _, _, _, _, _⟩ := hfacts
      have hτnotin : (s.nextTag : Nat) ∉ tags s.incoming := by
        intro hm
        exact absurd (hbound _ (List.mem_append.mpr (Or.inl hm))) (lt_irrefl _)
      have hτnotout : (s.nextTag : Nat) ∉ tags s.outgoing := by
        intro hm
        exact absurd (hbound _ (List.mem_append.mpr (Or.inr hm))) (lt_irrefl _)
      have hfind : s.outgoing.find? (fun r => r.tag == s.nextTag) = none := by
        rw [List.find?_eq_none]
        intro r hr hq
        rw [beq_iff_eq] at hq
        exact hτnotout (hq ▸ List.mem_map.mpr ⟨r, hr, rfl⟩)
      have hpot : potOf s.mfs s.retransmit_multiplier s.nextTag
          (s.outgoing ++ [⟨some t, s.now, 0, t.id, s.nextTag⟩])
          = Transfer.fragments_count s.mfs t * s.retransmit_multiplier := by
        rw [potOf_append_right hfind,
          potOf_cons_pos (show (⟨some t, s.now, 0, t.id, s.nextTag⟩ :
            TransferProgress).tag = s.nextTag from rfl)]
        rfl
      have hbud := tick_budget ops _ s.nextTag hInv' (Nat.lt_succ_self _) hτnotin
      dsimp only at hbud
      rw [hpot] at hbud
      calc (tickEvents (runTrace _ ops).2).countP (isFragTxFor s.nextTag)
          ≤ (tickEvents (runTrace _ ops).2).countP (isTxFor s.nextTag) :=
            List.countP_mono_left (fun e _ => isFragTxFor_isTxFor)
      _ ≤ _ := hbud

end sp

namespace sp

/-- Witness for the amended C2 at a concrete one-fragment transfer: the burst
emits 1 ≤ N = 1 fragment and a following `main_task` pass stays within the
budget N * retransmit_multiplier = 1. -/
theorem C2_amended_burst_and_tick_budget_witness :
    Inv exS2b
    ∧ [Event.transmit (some 0) ⟨2, [1, 1, 1, 7, 0, 6, 0, 9, 9]⟩].countP
        (isFragTxFor exS2b.nextTag) ≤ Transfer.fragments_count exS2b.mfs exT2
    ∧ (tickEvents (runTrace (⟨[], [⟨some exT2, 0, 0, 7, 0⟩], 1, 100, 1000, 1, 4, 0, 1⟩ : Handler)
          [Op.tick]).2).countP (isFragTxFor exS2b.nextTag)
        ≤ Transfer.fragments_count exS2b.mfs exT2 * exS2b.retransmit_multiplier := by
  have hx : exS2b.transmit exT2
      = .ok (⟨[], [⟨some exT2, 0, 0, 7, 0⟩], 1, 100, 1000, 1, 4, 0, 1⟩,
        [Event.transmit (some 0) ⟨2, [1, 1, 1, 7, 0, 6, 0, 9, 9]⟩]) := rfl
  exact ⟨by decide,
    (C2_amended_burst_and_tick_budget (by decide) hx [Op.tick]).1,
    (C2_amended_burst_and_tick_budget (by decide) hx [Op.tick]).2⟩

/-- Claim C9: in every reachable state every outgoing record owns its
transfer (`tr` is non-null) — only incoming records release transfers while
staying in the table — so the unguarded `t.tr->get_id()` dereference in the
FRAGMENT_REQ/FRAGMENT_ACK lookup never dereferences a null pointer. -/
theorem C9_outgoing_records_own_transfer (s : Handler) (hr : Reachable s) :
    (∀ r ∈ s.outgoing, r.tr.isSome = true)
    ∧ ∀ (h : Header) (p : Fragment), recvCtl s h p s.outgoing ≠ .error .nullDeref := by
  have hInv := reachable_inv hr
  exact ⟨hInv.2.2, fun h p => recvCtl_no_nullDeref hInv.2.2⟩

/-- Witness for C9 along the concrete reachable state `exS1` (fresh handler,
one status update, one transmit). -/
theorem C9_outgoing_records_own_transfer_witness :
    recvCtl exS1 ⟨2, 1, 1, 7, 6⟩ ⟨2, []⟩ exS1.outgoing ≠ .error .nullDeref :=
  (C9_outgoing_records_own_transfer exS1
    (Reachable.step
      (Reachable.step (Reachable.init 4 100 1000 2)
        (show step (mkHandler 4 100 1000 2) (Op.status 1)
          = .ok (⟨[], [], 1, 100, 1000, 2, 4, 0, 0⟩, []) from rfl))
      (show step (⟨[], [], 1, 100, 1000, 2, 4, 0, 0⟩ : Handler) (Op.xmit exT1)
        = .ok (exS1, [.transmit (some 0) ⟨2, [1, 1, 1, 7, 0, 6, 0, 9]⟩]) from rfl))).2
    ⟨2, 1, 1, 7, 6⟩ ⟨2, []⟩

/-- Claim C8: a FRAGMENT whose header id equals the cached id of the first
matching record, when that record is in grace (released transfer), makes the
handler — provided `can_transmit()` — re-emit a FRAGMENT_ACK built from the
received header's fields, drop the fragment payload, and leave the state
completely unchanged. -/
theorem C8_grace_record_reacks (s : Handler) (h : Header) (p : Fragment)
    (l1 l2 : List TransferProgress) (r : TransferProgress)
    (hty : h.typeCode = FRAGMENT)
    (hin : s.incoming = l1 ++ r :: l2)
    (hpre : ∀ r' ∈ l1, incomingMatches h p r' = false)
    (hgrace : r.tr = none) (hid : r.id = h.id)
    (hct : s.can_transmit = true) :
    handle_fragment s h p = .ok (s,
      [.transmit (some r.tag)
        ⟨p.addr, Header.to_bytes ⟨FRAGMENT_ACK, h.fragment, h.fragments_total, h.id, h.prev_id⟩⟩]) := by
  have hrec := @recvFragIn_grace s h p hct l1 r l2 hpre hgrace hid
  have hty' : (h.typeCode == FRAGMENT) = true := by rw [hty]; rfl
  simp only [handle_fragment, hty', if_true, hin, hrec]
  rw [← hin]

/-- Witness for C8 at the concrete grace-state handler `exS8`. -/
theorem C8_grace_record_reacks_witness :
    handle_fragment exS8 exH8 exP8 = .ok (exS8,
      [.transmit (some 3) ⟨9, Header.to_bytes ⟨FRAGMENT_ACK, 2, 3, 7, 6⟩⟩]) :=
  C8_grace_record_reacks exS8 exH8 exP8 [] [] ⟨none, 0, 0, 7, 3⟩ rfl rfl
    (by intro r' hr'; cases hr') rfl rfl rfl

/-- Claim C10: for a complete reassembly, `_fragments_count()` is recomputed
as `⌈data_size / max_fragment_size⌉` instead of the preallocated slot count,
and the completion FRAGMENT_ACK emitted by the `main_task` pass carries this
recomputed value in both its fragment and fragments_total fields; the
concrete transfer `exT10` (two one-byte fragments, mfs 4) shows the
recomputed count (1) differing from the sender's fragments_total (2). -/
theorem C10_completion_ack_uses_recomputed_count (s : Handler)
    (r : TransferProgress) (tr : Transfer)
    (hin : s.incoming = [r]) (hout : s.outgoing = [])
    (htr : r.tr = some tr) (hcomp : tr.is_complete = true)
    (hct : s.can_transmit = true) :
    s.main_task = .ok ({ s with incoming := [{ r with tr := none }] },
      [.transmit (some r.tag)
        ⟨tr.source, Header.to_bytes ⟨FRAGMENT_ACK, Transfer.fragments_count s.mfs tr,
          Transfer.fragments_count s.mfs tr, tr.id, tr.prev_id⟩⟩,
       .received r.tag tr])
    ∧ Transfer.fragments_count s.mfs tr
        = tr.data_size / s.mfs + (if tr.data_size % s.mfs == 0 then 0 else 1)
    ∧ Transfer.fragments_count 4 exT10 = 1 ∧ exT10.slots.length = 2 := by
  refine ⟨?_, ?_, by decide, by decide⟩
  · have hcc : (tr.is_complete && s.can_transmit) = true := by
      rw [hcomp, hct]; rfl
    simp only [Handler.main_task, hin, hout, incomingPass, incExamine, htr, hcc,
      if_true, outgoingPass, except_bind_ok, make_header, List.append_nil]
  · unfold Transfer.fragments_count
    rw [if_pos hcomp]

/-- Witness for C10 at the concrete complete reassembly `exT10`. -/
theorem C10_completion_ack_uses_recomputed_count_witness :
    exS10.main_task = .ok (⟨[⟨none, 0, 0, 7, 5⟩], [], 1, 100, 1000, 2, 4, 0, 6⟩,
      [.transmit (some 5) ⟨3, [2, 1, 1, 7, 0, 6, 0]⟩, .received 5 exT10]) :=
  (C10_completion_ack_uses_recomputed_count exS10 ⟨some exT10, 0, 0, 7, 5⟩ exT10
    rfl rfl rfl rfl rfl).1

/-- Claim C7 amended: `fragments_count` is at least 1 for every stored
transfer except a complete transfer with empty data: the count is zero
exactly when the transfer is complete and its data size is zero (in
particular an empty-payload emission accepted by `transmit()`); an incomplete
reassembly always counts its (nonempty) slot list. -/
theorem C7_amended_count_zero_iff (mfs : Nat) (t : Transfer) :
    Transfer.fragments_count mfs t = 0
      ↔ (t.is_complete = true ∧ t.data_size = 0) := by
  unfold Transfer.fragments_count
  by_cases hc : t.is_complete = true
  · rw [if_pos hc]
    constructor
    · intro hz
      refine ⟨hc, ?_⟩
      rcases Nat.add_eq_zero.mp hz with ⟨h1, h2⟩
      have hmod : t.data_size % mfs = 0 := by
        by_cases hm : (t.data_size % mfs == 0) = true
        · rw [beq_iff_eq] at hm
          exact hm
        · rw [if_neg hm] at h2
          cases h2
      have hdm := Nat.div_add_mod t.data_size mfs
      rw [h1, Nat.mul_zero, hmod] at hdm
      exact hdm.symm
    · rintro ⟨_, hz⟩
      rw [hz]
      simp
  · rw [if_neg hc]
    constructor
    · intro hz
      rw [List.length_eq_zero] at hz
      exfalso
      apply hc
      rw [Transfer.is_complete, hz]
      rfl
    · rintro ⟨hcc, _⟩
      exact absurd hcc hc

/-- Claim C3 amended: the pointwise behaviour of the periodic pass — when no
incoming record meets an erase condition, the incoming loop examines every
record (and only an erasure makes it carry the immediately following record
over unexamined, as the counterexample shows); the outgoing loop examines
every record unconditionally, erasures included. -/
theorem C3_amended_no_skip_without_erase (s : Handler) :
    (∀ l : List TransferProgress,
      (∀ r ∈ l, (incExamine s r).1 ≠ none) →
      incomingPass s l
        = (l.filterMap (fun r => (incExamine s r).1),
           (l.map (fun r => (incExamine s r).2)).flatten))
    ∧ (∀ (l l' : List TransferProgress) (evs : List Event),
        outgoingPass s l = .ok (l', evs) →
        l' = l.filterMap (fun r => match outExamine s r with
              | .ok (o, _) => o
              | .error _ => none)
        ∧ evs = (l.map (fun r => match outExamine s r with
              | .ok (_, ev) => ev
              | .error _ => [])).flatten) := by
  constructor
  · intro l
    induction l with
    | nil => intro _; rfl
    | cons r rest ih =>
      intro hne
      rcases hx : incExamine s r with ⟨o, evs⟩
      cases o with
      | none =>
        exact absurd (by rw [hx]) (hne r (List.mem_cons_self ..))
      | some r' =>
        have hrest := ih (fun r2 h2 => hne r2 (List.mem_cons_of_mem _ h2))
        simp only [incomingPass, hx, hrest, List.filterMap_cons, List.map_cons,
          List.flatten_cons]
  · intro l
    induction l with
    | nil =>
      intro l' evs he
      simp only [outgoingPass] at he
      rw [Except.ok.injEq, Prod.mk.injEq] at he
      obtain ⟨h1, h2⟩ := he
      subst h1; subst h2
      exact ⟨rfl, rfl⟩
    | cons r rest ih =>
      intro l' evs he
      simp only [outgoingPass] at he
      rcases hx : outExamine s r with e | ⟨o, evsr⟩
      · rw [hx, except_bind_error] at he; cases he
      · rw [hx, except_bind_ok] at he
        rcases hrest : outgoingPass s rest with e' | ⟨lrest, evsrest⟩
        · rw [hrest, except_bind_error] at he; cases he
        · rw [hrest, except_bind_ok] at he
          obtain ⟨hl, hev⟩ := ih lrest evsrest hrest
          cases o with
          | some r' =>
            rw [Except.ok.injEq, Prod.mk.injEq] at he
            obtain ⟨h1, h2⟩ := he
            subst h1; subst h2
            constructor
            · simp only [List.filterMap_cons, hx, hl]
            · simp only [List.map_cons, List.flatten_cons, hx, hev]
          | none =>
            rw [Except.ok.injEq, Prod.mk.injEq] at he
            obtain ⟨h1, h2⟩ := he
            subst h1; subst h2
            constructor
            · simp only [List.filterMap_cons, hx, hl]
            · simp only [List.map_cons, List.flatten_cons, hx, hev]

/-- Witness for the amended C3: the complete-record handler `exS10` erases
nothing in its incoming pass, so the pass examines its single record; and the
outgoing pass of `exS3` (empty outgoing table) is characterized pointwise. -/
theorem C3_amended_no_skip_without_erase_witness :
    incomingPass exS10 exS10.incoming
      = (exS10.incoming.filterMap (fun r => (incExamine exS10 r).1),
         (exS10.incoming.map (fun r => (incExamine exS10 r).2)).flatten)
    ∧ ([] : List TransferProgress) = ([] : List TransferProgress).filterMap
        (fun r => match outExamine exS3 r with
          | .ok (o, _) => o
          | .error _ => none) :=
  ⟨(C3_amended_no_skip_without_erase exS10).1 exS10.incoming (by decide),
   ((C3_amended_no_skip_without_erase exS3).2 [] [] [] rfl).1⟩

end sp
